import Mathlib

/-!
Verification of the annotation-hierarchy core of PolyglotDB
(`annograph/io/helper.py` and `polyglotdb/corpus.py`) via a shallow
embedding in Lean.  Python classes become structures, mutation becomes
explicit state passing, and statements that can raise become
`Except String`-valued functions whose `error` carries the Python
exception.  Numbers (Python int/float) are modelled as rationals.
-/

namespace Annograph

/-- The universe of Python values that flow through `Attribute` methods:
`None`, numbers (int/float, modelled as `ℚ`), strings, and lists of
segment labels (the tier default `[]` and tier-valued updates). -/
inductive PyVal where
  | none
  | num (q : ℚ)
  | str (s : String)
  | pylist (vs : List String)
  deriving DecidableEq, Repr

/-- Python truthiness for the values above (`if default_value:`). -/
def pyTruthy : PyVal → Bool
  | PyVal.none => false
  | PyVal.num q => q != 0
  | PyVal.str s => s != ""
  | PyVal.pylist vs => !vs.isEmpty

/-- Numeric value of a list of decimal digit characters. -/
def digitsVal (cs : List Char) : ℕ :=
  cs.foldl (fun a c => 10 * a + (c.toNat - 48)) 0

/-- Model of Python `float(s)` on strings: strips surrounding whitespace,
accepts an optional sign followed by a decimal numeral with an optional
fractional part (`"12"`, `"-3.5"`, `".5"`, `"7."`), and rejects anything
else (returning `Option.none` where Python raises `ValueError`). -/
def pyFloat? (s : String) : Option ℚ :=
  let cs := ((s.toList.dropWhile Char.isWhitespace).reverse.dropWhile Char.isWhitespace).reverse
  let signAndDigits : ℚ × List Char :=
    match cs with
    | '+' :: t => (1, t)
    | '-' :: t => (-1, t)
    | t => (1, t)
  let sgn := signAndDigits.1
  let body := signAndDigits.2
  let ip := body.takeWhile Char.isDigit
  let rest := body.dropWhile Char.isDigit
  match rest with
  | [] => if ip.isEmpty then Option.none else some (sgn * (digitsVal ip : ℚ))
  | '.' :: fp =>
    if fp.all Char.isDigit && (!ip.isEmpty || !fp.isEmpty) then
      some (sgn * ((digitsVal ip : ℚ) + (digitsVal fp : ℚ) / (10 ^ fp.length)))
    else Option.none
  | _ => Option.none

/-- The four attribute types of `Attribute.ATT_TYPES`. -/
inductive AttType where
  | spelling
  | tier
  | numeric
  | factor
  deriving DecidableEq, Repr

/-- The shapes `Attribute._range` takes: a two-element list `[min, max]`
for numeric attributes, a Python set of values (factor/tier ranges and
the result of the `default_value` setter), or `None` (spelling). -/
inductive PyRange where
  | interval (lo hi : ℚ)
  | pyset (vs : List PyVal)
  | pynone
  deriving DecidableEq, Repr

/-- Python `set.add`: sets are modelled as duplicate-free lists. -/
def setInsert (l : List PyVal) (v : PyVal) : List PyVal :=
  if v ∈ l then l else l ++ [v]

/-- `annograph.io.helper.Attribute`: mutable fields of an instance. -/
structure Attribute where
  name : String
  att_type : AttType
  display_name : Option String
  default_value : PyVal
  range : PyRange
  deriving DecidableEq, Repr

/-- `Attribute.__init__` (helper.py lines 54-86).  The `_delim` slot that
the tier branch creates is not modelled: no verified claim reads it. -/
def Attribute.init (name : String) (att_type : AttType)
    (display_name : Option String) (default_value : PyVal) : Attribute :=
  match att_type with
  | AttType.numeric =>
    { name, att_type, display_name,
      default_value :=
        match default_value with
        | PyVal.num q => PyVal.num q
        | _ => PyVal.num 0,
      range := PyRange.interval 0 0 }
  | AttType.factor =>
    { name, att_type, display_name,
      default_value :=
        match default_value with
        | PyVal.str s => PyVal.str s
        | _ => PyVal.str "",
      range :=
        if pyTruthy default_value then PyRange.pyset [default_value]
        else PyRange.pyset [] }
  | AttType.spelling =>
    { name, att_type, display_name,
      default_value :=
        match default_value with
        | PyVal.str s => PyVal.str s
        | _ => PyVal.str "",
      range := PyRange.pynone }
  | AttType.tier =>
    { name, att_type, display_name,
      default_value :=
        match default_value with
        | PyVal.none => PyVal.pylist []
        | v => v,
      range := PyRange.pyset [] }

/-- The `default_value` property setter (helper.py lines 163-166):
stores the value and unconditionally replaces `_range` by the
one-element set containing it. -/
def Attribute.set_default_value (a : Attribute) (value : PyVal) : Attribute :=
  { a with default_value := value, range := PyRange.pyset [value] }

/-- The numeric branch of `update_range` once a number `q` is in hand:
widen the bound touched; indexing `self._range[0]` raises if `_range`
is not the two-element list. -/
def Attribute.numericUpdate (a : Attribute) (q : ℚ) : Except String Attribute :=
  match a.range with
  | PyRange.interval lo hi =>
    if q < lo then Except.ok { a with range := PyRange.interval q hi }
    else if q > hi then Except.ok { a with range := PyRange.interval lo q }
    else Except.ok a
  | _ => Except.error "TypeError: range object is not subscriptable"

/-- `Attribute.update_range` (helper.py lines 172-209).  `None` is a
no-op; on a numeric attribute a string is first passed through
`float`, and a parse failure permanently downgrades the attribute to
spelling with `None` range; factor adds the value to the range set;
tier adds every element of the (iterable) value; spelling does
nothing. -/
def Attribute.update_range (a : Attribute) (value : PyVal) : Except String Attribute :=
  if value = PyVal.none then Except.ok a
  else
    match a.att_type with
    | AttType.numeric =>
      match value with
      | PyVal.str s =>
        match pyFloat? s with
        | Option.none =>
          Except.ok { a with att_type := AttType.spelling, range := PyRange.pynone }
        | some q => a.numericUpdate q
      | PyVal.num q => a.numericUpdate q
      | _ => Except.error "TypeError: unorderable types"
    | AttType.factor =>
      match a.range with
      | PyRange.pyset vs => Except.ok { a with range := PyRange.pyset (setInsert vs value) }
      | _ => Except.error "AttributeError: range object has no attribute add"
    | AttType.tier =>
      -- the tier branch first coerces a list-valued `_range` to a set
      let vs? : Option (List PyVal) :=
        match a.range with
        | PyRange.pyset vs => some vs
        | PyRange.interval lo hi => some (setInsert [PyVal.num lo] (PyVal.num hi))
        | PyRange.pynone => Option.none
      match vs? with
      | Option.none => Except.error "AttributeError: range object has no attribute update"
      | some vs =>
        match value with
        | PyVal.str s =>
          let vs2 := s.toList.foldl (fun l c => setInsert l (PyVal.str (String.singleton c))) vs
          Except.ok { a with range := PyRange.pyset vs2 }
        | PyVal.pylist xs =>
          let vs2 := xs.foldl (fun l x => setInsert l (PyVal.str x)) vs
          Except.ok { a with range := PyRange.pyset vs2 }
        | _ => Except.error "TypeError: value object is not iterable"
    | AttType.spelling => Except.ok a

/-- Apply `update_range` to each value of a list in order, propagating
any raised exception. -/
def Attribute.update_range_list (a : Attribute) : List PyVal → Except String Attribute
  | [] => Except.ok a
  | v :: t =>
    match a.update_range v with
    | Except.ok b => b.update_range_list t
    | Except.error e => Except.error e

/-- The per-value classification performed by the counting loop of
`Attribute.guess_type` (helper.py lines 104-118): numeric if `float`
accepts the value, else tier if it contains a transcription delimiter,
else factor if it duplicates another sample value, else spelling. -/
def guessClassify (values : List String) (trans_delimiters : List String) (v : String) : AttType :=
  if (pyFloat? v).isSome then AttType.numeric
  else if trans_delimiters.any (fun d => decide (d.toList <:+: v.toList)) then AttType.tier
  else if 2 ≤ values.count v then AttType.factor
  else AttType.spelling

/-- `Attribute.guess_type` (helper.py lines 99-119).  The counting loop
completes, but the return statement
`max(probable_values.items(), key=operator.itemgetter(1))[0]`
references `operator`, a module helper.py never imports, so every call
raises `NameError` instead of returning a type. -/
def Attribute.guess_type (values : List String) (trans_delimiters : List String) :
    Except String AttType :=
  let _probable_values : AttType → ℕ := fun t =>
    (values.filter (fun v => guessClassify values trans_delimiters v = t)).length
  Except.error "NameError: name operator is not defined"

/-! ## The transcription tokenizer (`parse_transcription`, helper.py 491-565) -/

/-- `annograph.io.helper.BaseAnnotation` (helper.py 212-219): a labelled
span with optional begin/end positions and stress/tone/group slots.
`begin`/`end` are Lean keywords, hence `begin_pos`/`end_pos`. -/
structure BaseAnnotation where
  label : List Char
  begin_pos : Option ℚ
  end_pos : Option ℚ
  stress : Option (List Char)
  tone : Option (List Char)
  group : Option ℕ
  deriving DecidableEq, Repr

/-- `BaseAnnotation(seg)`: all optional slots default to `None`. -/
def BaseAnnotation.mk0 (label : List Char) : BaseAnnotation :=
  ⟨label, Option.none, Option.none, Option.none, Option.none, Option.none⟩

/-- The two numeric-suffix policies of `AnnotationType.number_behavior`. -/
inductive NumberBehavior where
  | stress
  | tone
  deriving DecidableEq, Repr

/-- The fields of an `AnnotationType` that `parse_transcription` reads.
Morpheme delimiters are modelled as literal single characters (the
source splits on a regex alternation of the configured set; regex
metacharacter effects are outside the model).  The digraph set is
modelled as a list; digraphs are non-empty strings. -/
structure ParseConfig where
  morph_delimiters : List Char
  ignored_characters : List Char
  trans_delimiter : Option (List Char)
  digraphs : List (List Char)
  number_behavior : Option NumberBehavior
  deriving DecidableEq, Repr

/-- Index of the leftmost occurrence of `d` in `s` (the position Python
`str.split` / `str.find` locates), if any. -/
def findOccIdx (d : List Char) : List Char → Option ℕ
  | [] => if d.isPrefixOf [] then some 0 else Option.none
  | c :: rest =>
    if d.isPrefixOf (c :: rest) then some 0
    else (findOccIdx d rest).map (· + 1)

/-- Python `str.split` with separator `d` (helper.py line 539 uses it
with the configured transcription delimiter): cut at the leftmost
occurrence, continue after it; empty pieces are kept.  Each cut
consumes at least one character when `d` is non-empty, so the string
length bounds the recursion depth (`fuel`); Python raises
`ValueError` on an empty separator before this point is reached, so
the `d.isEmpty` guard below is never exercised by
`parse_transcription`. -/
def pySplitF (d : List Char) : ℕ → List Char → List (List Char)
  | 0, s => [s]
  | fuel + 1, s =>
    match findOccIdx d s with
    | Option.none => [s]
    | some i =>
      if d.isEmpty then [s]
      else s.take i :: pySplitF d fuel (s.drop (i + d.length))

/-- Python `s.split(d)` for a non-empty separator `d`. -/
def pySplit (d s : List Char) : List (List Char) :=
  pySplitF d s.length s

/-- Python `d.join(ls)`. -/
def pyJoin (d : List Char) : List (List Char) → List Char
  | [] => []
  | [l] => l
  | l :: l2 :: ls => l ++ d ++ pyJoin d (l2 :: ls)

/-- `compile_digraphs` (helper.py 491-495) sorts the digraphs longest
first; insertion sort by length, descending.  (Python's `sorted` is
stable; the relative order of equal-length digraphs cannot affect
matching, since two distinct literals of the same length never both
match at one position.) -/
def insertByLen (x : List Char) : List (List Char) → List (List Char)
  | [] => [x]
  | y :: ys => if y.length < x.length then x :: y :: ys else y :: insertByLen x ys

/-- The digraph alternation, longest first, as compiled by
`compile_digraphs`; the trailing regex alternatives are a digit run
and any single non-whitespace character. -/
def compile_digraphs (ds : List (List Char)) : List (List Char) :=
  ds.foldr insertByLen []

/-- `re.findall` with the pattern compiled by `compile_digraphs`
(digraph alternatives in the given order, then a maximal digit run,
then one non-whitespace character; unmatched positions, i.e.
whitespace, are skipped).  Fuel is the length of the string. -/
def digraphFindallGo (ds : List (List Char)) : ℕ → List Char → List (List Char)
  | 0, _ => []
  | _ + 1, [] => []
  | fuel + 1, c :: rest =>
    match ds.find? (fun d => !d.isEmpty && d.isPrefixOf (c :: rest)) with
    | some d => d :: digraphFindallGo ds fuel ((c :: rest).drop d.length)
    | Option.none =>
      if c.isDigit then
        ((c :: rest).takeWhile Char.isDigit) ::
          digraphFindallGo ds fuel ((c :: rest).dropWhile Char.isDigit)
      else if !c.isWhitespace then
        [c] :: digraphFindallGo ds fuel rest
      else
        digraphFindallGo ds fuel rest

/-- `annotation_type.digraph_pattern.findall(string)`. -/
def digraphFindall (ds : List (List Char)) (s : List Char) : List (List Char) :=
  digraphFindallGo ds s.length s

/-- `parse_numbers.findall(string)` with the module-level pattern
`\d+|\S` (helper.py line 522). -/
def parse_numbers_findall (s : List Char) : List (List Char) :=
  digraphFindallGo [] s.length s

/-- Store a parsed digit suffix in the slot selected by the policy
(`setattr(a, annotation_type.number_behavior, num)`). -/
def setNum (nb : NumberBehavior) (a : BaseAnnotation) (num : Option (List Char)) :
    BaseAnnotation :=
  match nb with
  | NumberBehavior.stress => { a with stress := num }
  | NumberBehavior.tone => { a with tone := num }

/-- The token loop of `parse_transcription` (helper.py 544-564):
discard empty tokens; under a numeric-suffix policy strip the digits
from each token, and when nothing but digits remains attach them to
the previous emitted segment — `final_string[-1]` raises `IndexError`
when there is no previous segment.  `acc` holds the emitted segments
in reverse. -/
def nbFold (nb : Option NumberBehavior) :
    List (List Char) → List BaseAnnotation → Except String (List BaseAnnotation)
  | [], acc => Except.ok acc.reverse
  | seg :: pieces, acc =>
    if seg.isEmpty then nbFold nb pieces acc
    else
      match nb with
      | Option.none => nbFold nb pieces ( BaseAnnotation.mk0 seg :: acc)
      | some b =>
        let numcs := seg.filter Char.isDigit
        let seg2 := seg.filter (fun c => !c.isDigit)
        let num : Option (List Char) := if numcs.isEmpty then Option.none else some numcs
        if seg2.isEmpty then
          match acc with
          | [] => Except.error "IndexError: list index out of range"
          | last :: acc2 => nbFold nb pieces (setNum b last num :: acc2)
        else
          nbFold nb pieces (setNum b ( BaseAnnotation.mk0 seg2) num :: acc)

/-- The body of `parse_transcription` below the morpheme-delimiter
branch (helper.py 535-565): strip ignored characters, segment by the
explicit delimiter (Python raises `ValueError` on an empty one), else
the digraph pattern, else `parse_numbers`, then run the token loop. -/
def parseCore (at_ : ParseConfig) (s : List Char) : Except String (List BaseAnnotation) :=
  let s1 := s.filter (fun c => !(at_.ignored_characters.contains c))
  match at_.trans_delimiter with
  | some d =>
    if d.isEmpty then Except.error "ValueError: empty separator"
    else nbFold at_.number_behavior (pySplit d s1) []
  | Option.none =>
    if !at_.digraphs.isEmpty then
      nbFold at_.number_behavior (digraphFindall (compile_digraphs at_.digraphs) s1) []
    else
      nbFold at_.number_behavior (parse_numbers_findall s1) []

/-- Split at every morpheme-delimiter character, keeping empty pieces,
as `re.split` on the alternation of the delimiters does. -/
def morphSplit (md : List Char) : List Char → List (List Char)
  | [] => [[]]
  | c :: rest =>
    if md.contains c then [] :: morphSplit md rest
    else
      match morphSplit md rest with
      | [] => [[c]]
      | p :: ps => (c :: p) :: ps

/-- The loop of the morpheme-delimiter branch (helper.py 528-534):
tokenize each indexed morph, tag its segments with the morph index
and concatenate, propagating any raised exception. -/
def parseMorphs (at_ : ParseConfig) : List (ℕ × List Char) → Except String (List BaseAnnotation)
  | [] => Except.ok []
  | mi :: rest =>
    match parseCore at_ mi.2 with
    | Except.error e => Except.error e
    | Except.ok ts =>
      match parseMorphs at_ rest with
      | Except.error e => Except.error e
      | Except.ok parts =>
        Except.ok (ts.map (fun t => { t with group := some mi.1 }) ++ parts)

/-- `parse_transcription` (helper.py 524-565).  When morpheme
delimiters are configured and present in the string, split on them
first, tokenize each morph and tag its segments with the morph index.
The source calls itself recursively on each morph; the call is
unrolled here to `parseCore`, which is exhaustive because morph
pieces contain no morpheme-delimiter character, so the recursive
call's morph branch is never taken. -/
def parse_transcription (at_ : ParseConfig) (s : List Char) :
    Except String (List BaseAnnotation) :=
  if !at_.morph_delimiters.isEmpty && s.any (fun c => at_.morph_delimiters.contains c) then
    parseMorphs at_ (morphSplit at_.morph_delimiters s).enum
  else
    parseCore at_ s

/-- No occurrence of the separator inside a piece. -/
def noOccPiece (d p : List Char) : Prop := findOccIdx d p = Option.none

/-- A piece produced before a separator: whatever follows the
separator, the leftmost occurrence of `d` in `L ++ d ++ r` is exactly
at the end of `L`. -/
def GoodPiece (d L : List Char) : Prop :=
  ∀ r, findOccIdx d (L ++ d ++ r) = some L.length

/-- The shape of a `str.split` result: every piece but the last is a
`GoodPiece` and the last piece contains no occurrence. -/
inductive PiecesOk (d : List Char) : List (List Char) → Prop where
  | last (p : List Char) (h : noOccPiece d p) : PiecesOk d [p]
  | cons (p : List Char) (ps : List (List Char)) (h : GoodPiece d p)
      (hps : PiecesOk d ps) : PiecesOk d (p :: ps)

/-- A configuration whose morpheme delimiter `-` is a prefix of its
explicit transcription delimiter `-x`. -/
def c6cfg : ParseConfig :=
  ⟨['-'], [], some ['-', 'x'], [], Option.none⟩

/-- The segments `parse_transcription` produces for `a-b` under
`c6cfg`: labels `a` and `b`, tagged with morph indices 0 and 1. -/
def c6segs : List BaseAnnotation :=
  [⟨['a'], Option.none, Option.none, Option.none, Option.none, some 0⟩,
   ⟨['b'], Option.none, Option.none, Option.none, Option.none, some 1⟩]

/-- A round-trip-friendly configuration: no morpheme delimiters, no
numeric-suffix policy, explicit delimiter `-`. -/
def c6wcfg : ParseConfig :=
  ⟨[], [], some ['-'], [], Option.none⟩

/-- The segments `parse_transcription` produces for `a-b` under
`c6wcfg`. -/
def c6wsegs : List BaseAnnotation :=
  [ BaseAnnotation.mk0 ['a'], BaseAnnotation.mk0 ['b']]

/-! ## DiscourseData.process_order (helper.py 444-474) -/

/-- The fields of an `AnnotationType` that `process_order`,
`word_levels` and `base_levels` read. -/
structure Tier where
  name : String
  supertype : Option String
  anchor : Bool
  token : Bool
  base : Bool
  deriving DecidableEq, Repr

/-- `AnnotationType.is_word_anchor` (helper.py 357-359). -/
def Tier.is_word_anchor (t : Tier) : Bool := !t.token && t.anchor

/-- A `DiscourseData` as `process_order` sees it: the insertion-ordered
tier dictionary `self.data`, as a list of tiers (with distinct names,
since it is a dict keyed by name). -/
structure OrderData where
  tiers : List Tier
  deriving DecidableEq, Repr

/-- `DiscourseData.word_levels` (helper.py 460-466). -/
def OrderData.word_levels (dd : OrderData) : List String :=
  (dd.tiers.filter Tier.is_word_anchor).map Tier.name

/-- `DiscourseData.base_levels` (helper.py 468-474). -/
def OrderData.base_levels (dd : OrderData) : List String :=
  (dd.tiers.filter Tier.base).map Tier.name

/-- `v.supertype is None` or `v.supertype in order`: the condition
under which `process_order` appends tier `v` (helper.py 453-457). -/
def tierReady (t : Tier) (order : List String) : Bool :=
  match t.supertype with
  | Option.none => true
  | some s => decide (s ∈ order)

/-- One full pass of the `for k, v in self.data.items()` loop inside
`process_order` (helper.py 448-457): append a tier when it is
unplaced, non-base, and its supertype is None or already placed;
otherwise continue to the next tier. -/
def processPass : List Tier → List String → List String
  | [], order => order
  | t :: rest, order =>
    if t.name ∈ order then processPass rest order
    else if t.base then processPass rest order
    else if tierReady t order then processPass rest (order ++ [t.name])
    else processPass rest order

/-- The `while len(order) < len(self.data.keys()) - len(self.base_levels)`
loop of `process_order`, fuelled by the number of passes: `none` means
the loop was still running when the fuel ran out.  The source contains
no raise and no progress check, so a configuration on which every pass
places nothing makes it loop forever. -/
def processOrderFuel (dd : OrderData) : ℕ → List String → Option (List String)
  | 0, order =>
    if order.length < dd.tiers.length - dd.base_levels.length then Option.none
    else some order
  | fuel + 1, order =>
    if order.length < dd.tiers.length - dd.base_levels.length then
      processOrderFuel dd fuel (processPass dd.tiers order)
    else some order

/-- `DiscourseData.process_order` with the given pass budget, started
from `word_levels` as the source does. -/
def process_order (dd : OrderData) (fuel : ℕ) : Option (List String) :=
  processOrderFuel dd fuel dd.word_levels

/-- `process_order` never returns however many passes it is allowed:
the embedding of an infinite `while` loop. -/
def processOrderDiverges (dd : OrderData) : Prop :=
  ∀ fuel, process_order dd fuel = Option.none

/-- A 2-cycle: tier A's supertype is B and tier B's supertype is A,
both non-base, neither a word anchor. -/
def twoCycleData : OrderData :=
  ⟨[⟨"A", some "B", false, false, false⟩, ⟨"B", some "A", false, false, false⟩]⟩

/-- The names of the non-base tiers, in dictionary order. -/
def OrderData.nonbaseNames (dd : OrderData) : List String :=
  (dd.tiers.filter (fun t => !t.base)).map Tier.name

/-- The invariant the `process_order` loop maintains on `order`: no
duplicates, every placed name is a non-base tier of the data, and
every word-anchor tier is already placed (the seed contains them). -/
def OrderInv (dd : OrderData) (order : List String) : Prop :=
  order.Nodup ∧
  (∀ n ∈ order, ∃ t, t ∈ dd.tiers ∧ t.name = n ∧ t.base = false) ∧
  (∀ t ∈ dd.tiers, t.is_word_anchor = true → t.name ∈ order)

/-- A small acyclic configuration: a word-anchor tier, a non-base tier
whose supertype is the anchor, and a base tier. -/
def forestData : OrderData :=
  ⟨[⟨"word", Option.none, true, false, false⟩,
    ⟨"line", some "word", false, false, false⟩,
    ⟨"phone", Option.none, false, false, true⟩]⟩

/-! ## CorpusContext.add_discourse (corpus.py 231-250) -/

/-- The interface of the `data` argument that `add_discourse` reads:
`data.output_types`, `data.is_timed`, `data.word_levels`, and per-tier
lookup `data[x]` giving supertype and anchor flag.  Modelled from the
spec: the data class itself (the io-side discourse container with
`output_types` and `is_timed`) is not among the provided sources; per
spec section 6 a discourse contributes a set of tier-type names, a
timed/untimed flag, and the tier-hierarchy information, which is what
`add_discourse` reads from it.  `tiers` is the name-keyed dictionary,
mapping a tier name to (supertype, anchor). -/
structure GraphDiscourse where
  output_types : List String
  is_timed : Bool
  word_levels : List String
  tiers : List (String × Option String × Bool)
  deriving DecidableEq, Repr

/-- `data[x]`: dictionary lookup by tier name. -/
def GraphDiscourse.find? (d : GraphDiscourse) (n : String) : Option (Option String × Bool) :=
  (d.tiers.find? (fun p => p.1 == n)).map Prod.snd

/-- The three persisted corpus-state fields that `add_discourse`
mutates: `relationship_types` (a Python set, modelled as a
duplicate-free list), `is_timed`, and `hierarchy` (a dict, modelled as
an association list). -/
structure CorpusState where
  relationship_types : List String
  is_timed : Bool
  hierarchy : List (String × Option String)
  deriving DecidableEq, Repr

/-- Python `set.add` on the relationship-type set. -/
def strInsert (l : List String) (s : String) : List String :=
  if s ∈ l then l else l ++ [s]

/-- Python dict assignment `h[k] = v`: update in place if the key
exists, else append. -/
def dictSet (l : List (String × Option String)) (k : String) (v : Option String) :
    List (String × Option String) :=
  if k ∈ l.map Prod.fst then l.map (fun p => if p.1 = k then (k, v) else p)
  else l ++ [(k, v)]

/-- `data[data.word_levels[0]]` resolves: `word_levels` is non-empty
and its first entry is a tier of the data. -/
def wordResolvable (d : GraphDiscourse) : Bool :=
  match d.word_levels with
  | [] => false
  | w :: _ => (d.find? w).isSome

/-- `data[x]` resolves and, when its supertype is set, so does
`data[supertype]`. -/
def tierResolvable (d : GraphDiscourse) (x : String) : Bool :=
  match d.find? x with
  | Option.none => false
  | some p =>
    match p.1 with
    | Option.none => true
    | some s => (d.find? s).isSome

/-- The hierarchy-rebuilding loop of `add_discourse` (corpus.py
242-250): `self.hierarchy = {}` then, for each output type `x`, map
`'word'` to the first word level's supertype, and any other `x` to its
supertype — replaced by `'word'` when that supertype is an anchor
tier.  Failed dictionary or list lookups raise. -/
def buildHierarchy (d : GraphDiscourse) :
    List String → List (String × Option String) → Except String (List (String × Option String))
  | [], h => Except.ok h
  | x :: rest, h =>
    if x = "word" then
      match d.word_levels with
      | [] => Except.error "IndexError: list index out of range"
      | w :: _ =>
        match d.find? w with
        | Option.none => Except.error "KeyError"
        | some p => buildHierarchy d rest (dictSet h x p.1)
    else
      match d.find? x with
      | Option.none => Except.error "KeyError"
      | some p =>
        match p.1 with
        | Option.none => buildHierarchy d rest (dictSet h x Option.none)
        | some sup =>
          match d.find? sup with
          | Option.none => Except.error "KeyError"
          | some q =>
            if q.2 then buildHierarchy d rest (dictSet h x (some "word"))
            else buildHierarchy d rest (dictSet h x (some sup))

/-- `CorpusContext.add_discourse` (corpus.py 231-250) restricted to the
three corpus-state fields: the graph/SQL/acoustic calls write only to
the external stores and are outside the model.  The relationship-type
set is updated with the discourse's output types, `is_timed` is set to
exactly the discourse's flag, and the hierarchy is rebuilt from `{}`
out of this discourse alone.  On a raise inside the hierarchy loop no
final state is produced. -/
def add_discourse (st : CorpusState) (d : GraphDiscourse) : Except String CorpusState :=
  match buildHierarchy d d.output_types [] with
  | Except.error e => Except.error e
  | Except.ok hier =>
    Except.ok ⟨d.output_types.foldl strInsert st.relationship_types, d.is_timed, hier⟩

/-- A concrete discourse for the C9 witness: a word-anchor tier named
"words" and a "phone" tier below it, untimed. -/
def exampleDiscourse : GraphDiscourse :=
  ⟨["word", "phone"], false, ["words"],
    [("words", (Option.none, true)), ("phone", (some "words", false))]⟩

/-! ## DiscourseData.collapse_speakers (helper.py 397-442) -/

/-- At collapse time a tier's stored annotations are plain Python
dictionaries (the loop does `for k2, v2 in ann.items()`), mapping
reference-tier names to `(begin, end)` interval tuples and plain
fields such as the label to strings. -/
inductive AnnVal where
  | interval (b e : ℕ)
  | strval (s : String)
  deriving DecidableEq, Repr

/-- The fields of an `AnnotationType` that `collapse_speakers` reads.
`output_name` is the field computed in `__init__` (line 284) by
stripping the speaker prefix from the name; its regex computation is
not needed by the claims and the stored value is used directly. -/
structure SpeakerTier where
  name : String
  output_name : String
  speaker : Option String
  subtype : Option String
  supertype : Option String
  anchor : Bool
  token : Bool
  base : Bool
  anns : List (List (String × AnnVal))
  deriving DecidableEq, Repr

/-- Insert into a sorted duplicate-free list of strings:
`sorted(set(...))`. -/
def strInsertSorted (x : String) : List String → List String
  | [] => [x]
  | y :: ys =>
    if x < y then x :: y :: ys
    else if x = y then y :: ys
    else y :: strInsertSorted x ys

/-- `sorted(set(x.speaker for x in self.data.values() if x.speaker is
not None))` (helper.py 403). -/
def speakersOf (tiers : List SpeakerTier) : List String :=
  (tiers.filterMap SpeakerTier.speaker).foldr strInsertSorted []

/-- The merge order built in helper.py 402-413: for each speaker in
sorted order, that speaker's non-base tiers (in dictionary order)
followed by its base tiers.  Tiers whose speaker is `None` never enter
the order. -/
def collapseKeys (tiers : List SpeakerTier) : List String :=
  ((speakersOf tiers).map (fun s =>
    (tiers.filter (fun v => v.speaker == some s && !v.base)).map SpeakerTier.name ++
    (tiers.filter (fun v => v.speaker == some s && v.base)).map SpeakerTier.name)).flatten

/-- `DiscourseData.collapse_speakers` (helper.py 397-442).  `newdata`
starts empty and `shifts` is initialised; the loop then walks
`collapseKeys`.  On the first iteration the merged tier named
`v.output_name` is not in the empty `newdata`, so the source executes
`AnnotationType(v.output_name, subtype, supertype, anchor = v.anchor,
token = v.token, base = v.base, delimited = v.delimited)` (lines
424-426) — but `AnnotationType.__init__` (lines 266-267) accepts no
`delimited` keyword, so this call raises TypeError before any
annotation is merged or any shift is applied.  Hence: when no tier is
speaker-owned the loop body never runs and `self.data` becomes the
empty dictionary; otherwise the method raises. -/
def collapse_speakers (tiers : List SpeakerTier) : Except String (List SpeakerTier) :=
  match collapseKeys tiers with
  | [] => Except.ok []
  | _ :: _ =>
    Except.error "TypeError: init got an unexpected keyword argument delimited"

/-! ## data_to_discourse (helper.py 591-645) -/

/-- A tier as the reachable prefix of `data_to_discourse` reads it:
line 592 evaluates `data.mapping()` (helper.py 394-395), a dict
comprehension reading `name`, `attribute` and `ignored` of every
tier.  The Attribute object is modelled by its name. -/
structure D2DTier where
  name : String
  attName : String
  ignored : Bool
  deriving DecidableEq, Repr

/-- `DiscourseData.mapping` (helper.py 394-395): the insertion-ordered
dict comprehension `\x7b x.name: x.attribute for x in self.data.values()
if not x.ignored \x7d`. -/
def DiscourseData.mapping (tiers : List D2DTier) : List (String × String) :=
  tiers.filterMap (fun t => if t.ignored then Option.none else some (t.name, t.attName))

/-- `data_to_discourse` (helper.py 591-645).  Line 592 evaluates
`data.mapping()`, which is total; line 593 then evaluates
`Discourse(name = data.name, wav_path = data.wav_path)`, but helper.py
neither imports nor defines `Discourse` (its only imports are `re`,
`os`, `string`, `logging` and `DelimiterError`), so every call raises
`NameError` there — before any attribute is registered and before any
word token is created.  The whole token loop (lines 606-645, which
also references the equally undefined name `WordToken`) is
unreachable. -/
def data_to_discourse (tiers : List D2DTier) : Except String Unit :=
  let _attribute_mapping := DiscourseData.mapping tiers
  Except.error "NameError: name Discourse is not defined"

/-- C10: the `default_value` setter replaces the range of an attribute
of every type by the one-element set containing the assigned value —
including numeric attributes (whose range is otherwise a `[min, max]`
pair) and spelling attributes (whose range is otherwise `None`). -/
theorem c10_default_value_sets_singleton_range (a : Attribute) (v : PyVal) :
    (a.set_default_value v).range = PyRange.pyset [v] ∧
    (a.set_default_value v).default_value = v ∧
    ((Attribute.init "f" AttType.numeric Option.none PyVal.none).set_default_value v).range
      = PyRange.pyset [v] ∧
    ((Attribute.init "f" AttType.spelling Option.none PyVal.none).set_default_value v).range
      = PyRange.pyset [v] := by
  refine ⟨rfl, rfl, rfl, rfl⟩

/-- A single numeric update on a numeric attribute, written as the
if-chain of the source; holds by computation. -/
theorem update_range_num (nm : String) (dn : Option String) (dv : PyVal) (lo hi v : ℚ) :
    Attribute.update_range ⟨nm, AttType.numeric, dn, dv, PyRange.interval lo hi⟩ (PyVal.num v)
      = (if v < lo then
          Except.ok ⟨nm, AttType.numeric, dn, dv, PyRange.interval v hi⟩
        else if v > hi then
          Except.ok ⟨nm, AttType.numeric, dn, dv, PyRange.interval lo v⟩
        else
          Except.ok ⟨nm, AttType.numeric, dn, dv, PyRange.interval lo hi⟩) := rfl

/-- Folding numeric updates over a numeric attribute widens the stored
bounds exactly to the fold of `min`/`max` over the values. -/
theorem update_range_list_numeric (vals : List ℚ) :
    ∀ (nm : String) (dn : Option String) (dv : PyVal) (lo hi : ℚ), lo ≤ hi →
      Attribute.update_range_list ⟨nm, AttType.numeric, dn, dv, PyRange.interval lo hi⟩
          (vals.map PyVal.num)
        = Except.ok ⟨nm, AttType.numeric, dn, dv,
            PyRange.interval (vals.foldl min lo) (vals.foldl max hi)⟩ := by
  induction vals with
  | nil => intro nm dn dv lo hi _; rfl
  | cons v t ih =>
    intro nm dn dv lo hi h3
    simp only [List.map_cons, List.foldl_cons]
    rw [Attribute.update_range_list, update_range_num]
    by_cases hlo : v < lo
    · rw [if_pos hlo]
      rw [min_eq_right (le_of_lt hlo), max_eq_left (le_trans (le_of_lt hlo) h3)]
      exact ih nm dn dv v hi (le_trans (le_of_lt hlo) h3)
    · rw [if_neg hlo]
      by_cases hhi : v > hi
      · rw [if_pos hhi]
        rw [min_eq_left (le_trans h3 (le_of_lt hhi)), max_eq_right (le_of_lt hhi)]
        exact ih nm dn dv lo v (le_trans h3 (le_of_lt hhi))
      · rw [if_neg hhi]
        rw [min_eq_left (le_of_not_lt hlo), max_eq_left (le_of_not_lt hhi)]
        exact ih nm dn dv lo hi h3

/-- `update_range` on a spelling attribute is a no-op. -/
theorem update_range_spelling (a : Attribute) (h : a.att_type = AttType.spelling) (v : PyVal) :
    a.update_range v = Except.ok a := by
  obtain ⟨nm, ty, dn, dv, r⟩ := a
  simp only at h
  subst h
  cases v <;> rfl

/-- No sequence of further updates changes a spelling attribute. -/
theorem update_range_list_spelling (a : Attribute) (h : a.att_type = AttType.spelling)
    (vs : List PyVal) : Attribute.update_range_list a vs = Except.ok a := by
  induction vs with
  | nil => rfl
  | cons v t ih =>
    rw [Attribute.update_range_list, update_range_spelling a h v]
    exact ih

/-- C4 counterexample: on a fresh numeric attribute the values 5 then 7
leave the range at [0, 7] (the initial bound 0 persists), not at
(min, max) = (5, 7) of the value sequence as the claim states. -/
theorem c4_counterexample :
    (Attribute.update_range_list (Attribute.init "f" AttType.numeric Option.none PyVal.none)
        [PyVal.num 5, PyVal.num 7]).map Attribute.range
      = Except.ok (PyRange.interval 0 7) ∧
    PyRange.interval 0 7 ≠ PyRange.interval 5 7 := by
  exact ⟨rfl, by decide⟩

/-- A non-numeric string permanently downgrades a numeric attribute to
spelling with `None` range (the `except ValueError` arm). -/
theorem update_range_badstr (nm : String) (dn : Option String) (dv : PyVal) (lo hi : ℚ)
    (s : String) (hs : pyFloat? s = Option.none) :
    Attribute.update_range ⟨nm, AttType.numeric, dn, dv, PyRange.interval lo hi⟩ (PyVal.str s)
      = Except.ok ⟨nm, AttType.spelling, dn, dv, PyRange.pynone⟩ := by
  show (match pyFloat? s with
        | Option.none => (Except.ok ⟨nm, AttType.spelling, dn, dv, PyRange.pynone⟩ :
            Except String Attribute)
        | some q =>
            Attribute.numericUpdate ⟨nm, AttType.numeric, dn, dv, PyRange.interval lo hi⟩ q) = _
  rw [hs]

/-- C4 (amended): starting from a freshly constructed numeric attribute
(whose range is initialised to the two-element list [0, 0]), folding
`update_range` over a non-empty sequence of numeric values leaves the
range equal to (min, max) of the sequence *together with the initial
bound 0*, i.e. [min (0 :: vals), max (0 :: vals)]; applying one
non-numeric string afterwards yields a spelling-typed attribute whose
range is None, and no subsequent `update_range` call ever restores a
numeric type or a numeric range (the downgrade is one-way). -/
theorem c4_update_range_minmax_and_one_way
    (vals : List ℚ) (hvals : vals ≠ []) (s : String) (hs : pyFloat? s = Option.none)
    (more : List PyVal) :
    ∃ a b c : Attribute,
      Attribute.update_range_list (Attribute.init "f" AttType.numeric Option.none PyVal.none)
          (vals.map PyVal.num) = Except.ok a ∧
      a.att_type = AttType.numeric ∧
      a.range = PyRange.interval (vals.foldl min 0) (vals.foldl max 0) ∧
      a.update_range (PyVal.str s) = Except.ok b ∧
      b.att_type = AttType.spelling ∧ b.range = PyRange.pynone ∧
      Attribute.update_range_list b more = Except.ok c ∧
      c.att_type = AttType.spelling ∧ c.range = PyRange.pynone := by
  refine ⟨⟨"f", AttType.numeric, Option.none, PyVal.num 0,
      PyRange.interval (vals.foldl min 0) (vals.foldl max 0)⟩,
    ⟨"f", AttType.spelling, Option.none, PyVal.num 0, PyRange.pynone⟩,
    ⟨"f", AttType.spelling, Option.none, PyVal.num 0, PyRange.pynone⟩,
    ?_, rfl, rfl, ?_, rfl, rfl, ?_, rfl, rfl⟩
  · exact update_range_list_numeric vals "f" Option.none (PyVal.num 0) 0 0 le_rfl
  · exact update_range_badstr "f" Option.none (PyVal.num 0) _ _ s hs
  · exact update_range_list_spelling _ rfl more

/-- Concrete witness for the amended C4 theorem. -/
theorem c4_update_range_minmax_and_one_way_witness :
    (([ (1:ℚ), 2 ] ≠ []) ∧ pyFloat? "x" = Option.none) ∧
    (∃ a b c : Attribute,
      Attribute.update_range_list (Attribute.init "f" AttType.numeric Option.none PyVal.none)
          ([(1:ℚ), 2].map PyVal.num) = Except.ok a ∧
      a.att_type = AttType.numeric ∧
      a.range = PyRange.interval ([(1:ℚ), 2].foldl min 0) ([(1:ℚ), 2].foldl max 0) ∧
      a.update_range (PyVal.str "x") = Except.ok b ∧
      b.att_type = AttType.spelling ∧ b.range = PyRange.pynone ∧
      Attribute.update_range_list b [PyVal.num 3] = Except.ok c ∧
      c.att_type = AttType.spelling ∧ c.range = PyRange.pynone) :=
  ⟨⟨by decide, by rfl⟩,
    c4_update_range_minmax_and_one_way [1, 2] (by decide) "x" (by rfl) [PyVal.num 3]⟩

/-- C8: `Attribute.guess_type` always raises `NameError` (the module
`operator` used on its final line is never imported), so it is not a
never-throwing function of its input sample. -/
theorem c8_guess_type_always_raises (values : List String) (trans_delimiters : List String) :
    Attribute.guess_type values trans_delimiters
      = Except.error "NameError: name operator is not defined" := rfl

/-- A non-empty list is not `isEmpty`. -/
theorem isEmpty_false_of_ne_nil {α : Type} {l : List α} (h : l ≠ []) : l.isEmpty = false := by
  cases l with
  | nil => exact absurd rfl h
  | cons a t => rfl

/-- An occurrence found by `findOccIdx` fits inside the string. -/
theorem findOccIdx_le (d : List Char) (hd : d ≠ []) :
    ∀ (s : List Char) (i : ℕ), findOccIdx d s = some i → i + d.length ≤ s.length := by
  intro s
  induction s with
  | nil =>
    intro i h
    rw [findOccIdx] at h
    have hnp : ¬ d.isPrefixOf [] = true := by
      cases d with
      | nil => exact absurd rfl hd
      | cons a t => simp [List.isPrefixOf]
    rw [if_neg hnp] at h
    exact absurd h (by simp)
  | cons c rest ih =>
    intro i h
    rw [findOccIdx] at h
    by_cases hp : d.isPrefixOf (c :: rest) = true
    · rw [if_pos hp] at h
      cases h
      have hl := List.IsPrefix.length_le (List.isPrefixOf_iff_prefix.mp hp)
      simpa using hl
    · rw [if_neg hp] at h
      cases hfi : findOccIdx d rest with
      | none => rw [hfi] at h; exact absurd h (by simp)
      | some j =>
        rw [hfi] at h
        have h2 : some (j + 1) = some i := h
        have h3 : j + 1 = i := Option.some.inj h2
        subst h3
        have hj := ih j hfi
        simp only [List.length_cons]
        omega

/-- `findOccIdx` finds nothing in the empty string when the needle is
non-empty. -/
theorem findOccIdx_nil (d : List Char) (hd : d ≠ []) : findOccIdx d [] = Option.none := by
  rw [findOccIdx]
  have hnp : ¬ d.isPrefixOf [] = true := by
    cases d with
    | nil => exact absurd rfl hd
    | cons a t => simp [List.isPrefixOf]
  rw [if_neg hnp]

/-- A string with no occurrence of the separator splits into itself. -/
theorem pySplit_no_occ (d s : List Char) (h : findOccIdx d s = Option.none) :
    pySplit d s = [s] := by
  cases s with
  | nil => rfl
  | cons c t =>
    show pySplitF d (t.length + 1) (c :: t) = [c :: t]
    rw [pySplitF, h]

/-- With no numeric-suffix policy the token loop never raises. -/
theorem nbFold_none_ok : ∀ (pieces : List (List Char)) (acc : List BaseAnnotation),
    ∃ l, nbFold Option.none pieces acc = Except.ok l := by
  intro pieces
  induction pieces with
  | nil => intro acc; exact ⟨acc.reverse, rfl⟩
  | cons seg t ih =>
    intro acc
    by_cases h : seg.isEmpty = true
    · obtain ⟨l, hl⟩ := ih acc
      exact ⟨l, by rw [nbFold, if_pos h]; exact hl⟩
    · obtain ⟨l, hl⟩ := ih ( BaseAnnotation.mk0 seg :: acc)
      exact ⟨l, by rw [nbFold, if_neg h]; exact hl⟩

/-- With no numeric-suffix policy and a non-empty explicit delimiter
(when one is configured), `parseCore` never raises. -/
theorem parseCore_ok (at_ : ParseConfig) (hnb : at_.number_behavior = Option.none)
    (hd : ∀ d, at_.trans_delimiter = some d → d ≠ []) (s : List Char) :
    ∃ segs, parseCore at_ s = Except.ok segs := by
  rw [parseCore, hnb]
  cases htd : at_.trans_delimiter with
  | none =>
    by_cases hdg : (!at_.digraphs.isEmpty) = true
    · rw [if_pos hdg]
      exact nbFold_none_ok _ _
    · rw [if_neg hdg]
      exact nbFold_none_ok _ _
  | some d =>
    have hdne := hd d htd
    have hcond : ¬(d.isEmpty = true) := by simp [isEmpty_false_of_ne_nil hdne]
    show ∃ segs, (if d.isEmpty = true then Except.error "ValueError: empty separator"
      else nbFold Option.none
        (pySplit d (List.filter (fun c => !at_.ignored_characters.contains c) s)) [])
      = Except.ok segs
    rw [if_neg hcond]
    exact nbFold_none_ok _ _

/-- With no numeric-suffix policy and a non-empty explicit delimiter,
the morpheme loop never raises. -/
theorem parseMorphs_ok (at_ : ParseConfig) (hnb : at_.number_behavior = Option.none)
    (hd : ∀ d, at_.trans_delimiter = some d → d ≠ []) :
    ∀ l, ∃ segs, parseMorphs at_ l = Except.ok segs := by
  intro l
  induction l with
  | nil => exact ⟨[], rfl⟩
  | cons mi rest ih =>
    obtain ⟨ts, hts⟩ := parseCore_ok at_ hnb hd mi.2
    obtain ⟨ps, hps⟩ := ih
    exact ⟨_, by rw [parseMorphs, hts, hps]⟩

/-- `parse_transcription` on the empty string returns the empty
sequence (for any configuration whose explicit delimiter, if any, is
non-empty). -/
theorem parse_transcription_nil (at_ : ParseConfig)
    (hd : ∀ d, at_.trans_delimiter = some d → d ≠ []) :
    parse_transcription at_ [] = Except.ok [] := by
  have hg : ¬((!at_.morph_delimiters.isEmpty &&
      List.any [] fun c => at_.morph_delimiters.contains c) = true) := by simp
  rw [parse_transcription, if_neg hg, parseCore]
  cases htd : at_.trans_delimiter with
  | none =>
    by_cases hdg : (!at_.digraphs.isEmpty) = true
    · rw [if_pos hdg]; rfl
    · rw [if_neg hdg]; rfl
  | some d =>
    have hdne := hd d htd
    have hcond : ¬(d.isEmpty = true) := by simp [isEmpty_false_of_ne_nil hdne]
    show (if d.isEmpty = true then Except.error "ValueError: empty separator"
      else nbFold at_.number_behavior
        (pySplit d (List.filter (fun c => !at_.ignored_characters.contains c) [])) [])
      = Except.ok []
    rw [if_neg hcond]
    show nbFold at_.number_behavior (pySplit d []) [] = Except.ok []
    rw [pySplit_no_occ d [] (findOccIdx_nil d hdne)]
    rfl

/-- C2 counterexample: with the stress numeric-suffix policy and the
delimiter ".", parsing the one-character string "1" raises IndexError
(`final_string[-1]` with no previous segment), so `parse_transcription`
is not total over every configuration and string. -/
theorem c2_counterexample :
    parse_transcription ⟨[], [], some ['.'], [], some NumberBehavior.stress⟩ ['1']
      = Except.error "IndexError: list index out of range" := rfl

/-- C2 (amended): `parse_transcription` never raises and returns a
sequence of segments for every configuration whose numeric-suffix
policy is `None` and whose explicit transcription delimiter, when
configured, is non-empty; on the empty string it returns the empty
sequence.  (With a numeric-suffix policy active it can raise
IndexError, and an empty explicit delimiter raises ValueError.) -/
theorem c2_parse_transcription_total_without_number_policy
    (at_ : ParseConfig) (hnb : at_.number_behavior = Option.none)
    (hd : ∀ d, at_.trans_delimiter = some d → d ≠ []) (s : List Char) :
    (∃ segs, parse_transcription at_ s = Except.ok segs) ∧
    parse_transcription at_ [] = Except.ok [] := by
  constructor
  · rw [parse_transcription]
    by_cases hg : (!at_.morph_delimiters.isEmpty &&
        s.any fun c => at_.morph_delimiters.contains c) = true
    · rw [if_pos hg]
      exact parseMorphs_ok at_ hnb hd _
    · rw [if_neg hg]
      exact parseCore_ok at_ hnb hd s
  · exact parse_transcription_nil at_ hd

/-- Concrete witness for the amended C2 theorem. -/
theorem c2_parse_transcription_total_without_number_policy_witness :
    ((⟨[], [], some ['.'], [], Option.none⟩ : ParseConfig).number_behavior = Option.none ∧
      (∀ d, (⟨[], [], some ['.'], [], Option.none⟩ : ParseConfig).trans_delimiter = some d →
        d ≠ [])) ∧
    ((∃ segs, parse_transcription ⟨[], [], some ['.'], [], Option.none⟩ ['a']
        = Except.ok segs) ∧
      parse_transcription ⟨[], [], some ['.'], [], Option.none⟩ [] = Except.ok []) :=
  ⟨⟨rfl, fun d hdd => by
      have h2 : ['.'] = d := Option.some.inj hdd
      subst h2
      decide⟩,
    c2_parse_transcription_total_without_number_policy _ rfl
      (fun d hdd => by
        have h2 : ['.'] = d := Option.some.inj hdd
        subst h2
        decide) ['a']⟩

/-- Membership in the insertion used by `compile_digraphs`. -/
theorem mem_insertByLen (x a : List Char) :
    ∀ l, (a ∈ insertByLen x l ↔ a = x ∨ a ∈ l) := by
  intro l
  induction l with
  | nil => simp [insertByLen]
  | cons y ys ih =>
    rw [insertByLen]
    by_cases hlt : y.length < x.length
    · rw [if_pos hlt]
      simp [List.mem_cons, or_left_comm, or_comm]
    · rw [if_neg hlt]
      simp only [List.mem_cons, ih]
      tauto

/-- Inserting preserves the longest-first ordering. -/
theorem sorted_insertByLen (x : List Char) :
    ∀ (l : List (List Char)), l.Sorted (fun a b => b.length ≤ a.length) →
      (insertByLen x l).Sorted (fun a b => b.length ≤ a.length) := by
  intro l
  induction l with
  | nil => intro _; simp [insertByLen]
  | cons y ys ih =>
    intro hs
    obtain ⟨hy, hys⟩ := List.sorted_cons.mp hs
    rw [insertByLen]
    by_cases hlt : y.length < x.length
    · rw [if_pos hlt]
      refine List.sorted_cons.mpr ⟨?_, hs⟩
      intro b hb
      rcases List.mem_cons.mp hb with hb1 | hb2
      · rw [hb1]; exact le_of_lt hlt
      · exact le_trans (hy b hb2) (le_of_lt hlt)
    · rw [if_neg hlt]
      refine List.sorted_cons.mpr ⟨?_, ih hys⟩
      intro b hb
      rcases (mem_insertByLen x b ys).mp hb with hb1 | hb2
      · rw [hb1]; exact le_of_not_lt hlt
      · exact hy b hb2

/-- `compile_digraphs` produces a longest-first list. -/
theorem sorted_compile_digraphs (ds : List (List Char)) :
    (compile_digraphs ds).Sorted (fun a b => b.length ≤ a.length) := by
  induction ds with
  | nil => simp [compile_digraphs]
  | cons x t ih =>
    rw [compile_digraphs, List.foldr_cons]
    exact sorted_insertByLen x _ ih

/-- `compile_digraphs` reorders but neither adds nor drops digraphs. -/
theorem mem_compile_digraphs (a : List Char) (ds : List (List Char)) :
    a ∈ compile_digraphs ds ↔ a ∈ ds := by
  induction ds with
  | nil => simp [compile_digraphs]
  | cons x t ih =>
    rw [compile_digraphs, List.foldr_cons, mem_insertByLen]
    rw [show List.foldr insertByLen [] t = compile_digraphs t from rfl, ih]
    simp [List.mem_cons]

/-- On a longest-first list, `find?` returns a match of maximal length:
everything the leftmost-alternative regex semantics needs. -/
theorem find?_sorted_max (p : List Char → Bool) :
    ∀ (l : List (List Char)), l.Sorted (fun a b => b.length ≤ a.length) →
      ∀ y, l.find? p = some y → ∀ e ∈ l, p e = true → e.length ≤ y.length := by
  intro l
  induction l with
  | nil => intro _ y h; simp at h
  | cons a t ih =>
    intro hs y hf e he hpe
    obtain ⟨ha, hts⟩ := List.sorted_cons.mp hs
    by_cases hpa : p a = true
    · rw [List.find?_cons_of_pos t hpa] at hf
      have hy : a = y := Option.some.inj hf
      subst hy
      rcases List.mem_cons.mp he with he1 | he2
      · rw [he1]
      · exact ha e he2
    · rw [List.find?_cons_of_neg t hpa] at hf
      rcases List.mem_cons.mp he with he1 | he2
      · rw [he1] at hpe; exact absurd hpe hpa
      · exact ih hts y hf e he2 hpe

/-- C7: digraph tokenization is longest-match-first.  For every digraph
set `D` and input with a matching non-empty digraph, the first token
emitted by the compiled pattern is a digraph of `D` that matches and
whose length is maximal among all matching digraphs of `D` (so no
proper prefix is ever chosen over a longer match); in particular with
digraphs {"ts", "t"} and no explicit delimiter, "tsa" tokenizes to
["ts", "a"], never ["t", "s", "a"]. -/
theorem c7_digraph_longest_match (D : List (List Char)) (s : List Char) (d : List Char)
    (hd : d ∈ D) (hd0 : d ≠ []) (hpre : d.isPrefixOf s = true) :
    (∃ d2, d2 ∈ D ∧ d2.isPrefixOf s = true ∧
      (∀ e ∈ D, e.isPrefixOf s = true → e.length ≤ d2.length) ∧
      (digraphFindall (compile_digraphs D) s).head? = some d2) ∧
    parse_transcription ⟨[], [], Option.none, [['t', 's'], ['t']], Option.none⟩ ['t', 's', 'a']
      = Except.ok [ BaseAnnotation.mk0 ['t', 's'], BaseAnnotation.mk0 ['a']] := by
  refine ⟨?_, rfl⟩
  obtain ⟨c, rest, rfl⟩ : ∃ c rest, s = c :: rest := by
    cases s with
    | nil =>
      exfalso
      cases d with
      | nil => exact hd0 rfl
      | cons a t => simp [List.isPrefixOf] at hpre
    | cons c rest => exact ⟨c, rest, rfl⟩
  have hmem : d ∈ compile_digraphs D := (mem_compile_digraphs d D).mpr hd
  have hpd : (!d.isEmpty && d.isPrefixOf (c :: rest)) = true := by
    rw [isEmpty_false_of_ne_nil hd0, hpre]
    rfl
  have hsome : ((compile_digraphs D).find?
      (fun d => !d.isEmpty && d.isPrefixOf (c :: rest))).isSome :=
    List.find?_isSome.mpr ⟨d, hmem, hpd⟩
  obtain ⟨d2, hfind⟩ := Option.isSome_iff_exists.mp hsome
  have hp2 := List.find?_some hfind
  have hmem2 := List.mem_of_find?_eq_some hfind
  have hpre2 : d2.isPrefixOf (c :: rest) = true := by
    simp only [Bool.and_eq_true] at hp2
    exact hp2.2
  refine ⟨d2, (mem_compile_digraphs d2 D).mp hmem2, hpre2, ?_, ?_⟩
  · intro e he hpe
    by_cases he0 : e = []
    · rw [he0]; exact Nat.zero_le _
    · have hpe2 : (!e.isEmpty && e.isPrefixOf (c :: rest)) = true := by
        rw [isEmpty_false_of_ne_nil he0, hpe]
        rfl
      exact find?_sorted_max _ _ (sorted_compile_digraphs D) d2 hfind e
        ((mem_compile_digraphs e D).mpr he) hpe2
  · show (digraphFindallGo (compile_digraphs D) (rest.length + 1) (c :: rest)).head? = some d2
    rw [digraphFindallGo, hfind]
    rfl

/-- Concrete witness for the C7 theorem: digraphs {"ts", "t"} on "tsa". -/
theorem c7_digraph_longest_match_witness :
    (['t', 's'] ∈ [['t', 's'], ['t']] ∧ ['t', 's'] ≠ ([] : List Char) ∧
      List.isPrefixOf ['t', 's'] ['t', 's', 'a'] = true) ∧
    ((∃ d2, d2 ∈ [['t', 's'], ['t']] ∧ d2.isPrefixOf ['t', 's', 'a'] = true ∧
      (∀ e ∈ [['t', 's'], ['t']], e.isPrefixOf ['t', 's', 'a'] = true →
        e.length ≤ d2.length) ∧
      (digraphFindall (compile_digraphs [['t', 's'], ['t']]) ['t', 's', 'a']).head? = some d2) ∧
    parse_transcription ⟨[], [], Option.none, [['t', 's'], ['t']], Option.none⟩ ['t', 's', 'a']
      = Except.ok [ BaseAnnotation.mk0 ['t', 's'], BaseAnnotation.mk0 ['a']]) :=
  ⟨⟨by decide, by decide, by decide⟩,
    c7_digraph_longest_match [['t', 's'], ['t']] ['t', 's', 'a'] ['t', 's']
      (by decide) (by decide) (by decide)⟩

/-- On the 2-cycle every pass places nothing, so `process_order` never
returns however much fuel it gets; the source raises nothing. -/
theorem twoCycleData_diverges : processOrderDiverges twoCycleData := by
  intro fuel
  induction fuel with
  | zero => rfl
  | succ n ih =>
    have h : process_order twoCycleData (n + 1) = process_order twoCycleData n := rfl
    rw [h]
    exact ih

/-- C3 counterexample: on the 2-cycle (A.supertype = B, B.supertype =
A) `process_order` does not raise a hierarchy error — the source
contains no raise and no progress check — it fails to terminate,
returning nothing for every pass budget. -/
theorem c3_counterexample : processOrderDiverges twoCycleData :=
  twoCycleData_diverges

/-- Unfolding `tierReady` at a `None` supertype. -/
theorem tierReady_none (t : Tier) (hst : t.supertype = Option.none) (order : List String) :
    tierReady t order = true := by
  simp only [tierReady, hst]

/-- Unfolding `tierReady` at a `some` supertype. -/
theorem tierReady_some (t : Tier) (s : String) (hst : t.supertype = some s)
    (order : List String) : tierReady t order = decide (s ∈ order) := by
  simp only [tierReady, hst]

/-- Readiness is monotone in the placed order. -/
theorem tierReady_mono (t : Tier) (order ext : List String) (h : tierReady t order = true) :
    tierReady t (order ++ ext) = true := by
  cases hst : t.supertype with
  | none => exact tierReady_none t hst _
  | some s =>
    rw [tierReady_some t s hst] at h ⊢
    simp only [decide_eq_true_eq] at h ⊢
    exact List.mem_append_left ext h

/-- `processPass` only appends to the order. -/
theorem processPass_append : ∀ (ts : List Tier) (order : List String),
    ∃ ext, processPass ts order = order ++ ext := by
  intro ts
  induction ts with
  | nil => intro order; exact ⟨[], (List.append_nil order).symm⟩
  | cons t rest ih =>
    intro order
    rw [processPass]
    by_cases h1 : t.name ∈ order
    · rw [if_pos h1]; exact ih order
    · rw [if_neg h1]
      by_cases h2 : t.base = true
      · rw [if_pos h2]; exact ih order
      · rw [if_neg h2]
        by_cases h3 : tierReady t order = true
        · rw [if_pos h3]
          obtain ⟨ext, he⟩ := ih (order ++ [t.name])
          exact ⟨[t.name] ++ ext, by rw [he, List.append_assoc]⟩
        · rw [if_neg h3]; exact ih order

/-- Anything already placed stays placed across a pass. -/
theorem processPass_mono (ts : List Tier) (order : List String) (n : String) (h : n ∈ order) :
    n ∈ processPass ts order := by
  obtain ⟨ext, he⟩ := processPass_append ts order
  rw [he]
  exact List.mem_append_left ext h

/-- A pass places every unplaced non-base tier that is ready when the
pass starts (readiness is monotone, so being ready at the start
suffices). -/
theorem processPass_places : ∀ (ts : List Tier) (order : List String) (t : Tier), t ∈ ts →
    t.base = false → tierReady t order = true → t.name ∈ processPass ts order := by
  intro ts
  induction ts with
  | nil => intro order t ht _ _; exact absurd ht (List.not_mem_nil t)
  | cons u rest ih =>
    intro order t ht hb hr
    rw [processPass]
    rcases List.mem_cons.mp ht with rfl | h2
    · by_cases hin : t.name ∈ order
      · rw [if_pos hin]
        exact processPass_mono rest order t.name hin
      · rw [if_neg hin, if_neg (by simp [hb]), if_pos hr]
        exact processPass_mono rest (order ++ [t.name]) t.name
          (List.mem_append_right order (List.mem_singleton.mpr rfl))
    · by_cases hin : u.name ∈ order
      · rw [if_pos hin]; exact ih order t h2 hb hr
      · rw [if_neg hin]
        by_cases hub : u.base = true
        · rw [if_pos hub]; exact ih order t h2 hb hr
        · rw [if_neg hub]
          by_cases hur : tierReady u order = true
          · rw [if_pos hur]
            exact ih (order ++ [u.name]) t h2 hb (tierReady_mono t order [u.name] hr)
          · rw [if_neg hur]; exact ih order t h2 hb hr

/-- A pass preserves the loop invariant. -/
theorem processPass_inv : ∀ (ts : List Tier) (dd : OrderData) (order : List String),
    (∀ t ∈ ts, t ∈ dd.tiers) → OrderInv dd order → OrderInv dd (processPass ts order) := by
  intro ts
  induction ts with
  | nil => intro dd order _ hinv; exact hinv
  | cons u rest ih =>
    intro dd order hts hinv
    have hrest : ∀ t ∈ rest, t ∈ dd.tiers := fun t ht => hts t (List.mem_cons_of_mem u ht)
    rw [processPass]
    by_cases hin : u.name ∈ order
    · rw [if_pos hin]; exact ih dd order hrest hinv
    · rw [if_neg hin]
      by_cases hub : u.base = true
      · rw [if_pos hub]; exact ih dd order hrest hinv
      · rw [if_neg hub]
        by_cases hur : tierReady u order = true
        · rw [if_pos hur]
          refine ih dd (order ++ [u.name]) hrest ⟨?_, ?_, ?_⟩
          · refine List.Nodup.append hinv.1 (List.nodup_singleton _) ?_
            intro a ha hb2
            rw [List.mem_singleton] at hb2
            subst hb2
            exact hin ha
          · intro n hn
            rcases List.mem_append.mp hn with h1 | h2
            · exact hinv.2.1 n h1
            · rw [List.mem_singleton] at h2
              subst h2
              refine ⟨u, hts u (List.mem_cons_self u rest), rfl, ?_⟩
              cases hbb : u.base with
              | false => rfl
              | true => exact absurd hbb hub
          · intro t ht hwa
            exact List.mem_append_left _ (hinv.2.2 t ht hwa)
        · rw [if_neg hur]; exact ih dd order hrest hinv

/-- While an unplaced non-base tier remains, a pass strictly grows the
order: the unplaced non-base tier of minimal rank is ready, because
its supertype is absent, an already-placed word anchor, or a non-base
tier of smaller rank (which cannot be unplaced, by minimality). -/
theorem processPass_progress (dd : OrderData) (rank : String → ℕ)
    (hsup : ∀ t ∈ dd.tiers, t.base = false → t.is_word_anchor = false →
      ∀ s, t.supertype = some s →
        ∃ u, u ∈ dd.tiers ∧ u.name = s ∧ u.base = false ∧
          (u.is_word_anchor = true ∨ rank s < rank t.name))
    (order : List String) (hinv : OrderInv dd order)
    (hrem : ∃ t, t ∈ dd.tiers ∧ t.base = false ∧ t.name ∉ order) :
    order.length < (processPass dd.tiers order).length := by
  obtain ⟨t0, ht0, hb0, hn0⟩ := hrem
  have hU0 : t0 ∈ dd.tiers.filter (fun t => !t.base && !(decide (t.name ∈ order))) :=
    List.mem_filter.mpr ⟨ht0, by simp [hb0, hn0]⟩
  obtain ⟨t, hargmin⟩ : ∃ t, t ∈ List.argmin (fun t => rank t.name)
      (dd.tiers.filter (fun t => !t.base && !(decide (t.name ∈ order)))) := by
    cases hA : List.argmin (fun t => rank t.name)
        (dd.tiers.filter (fun t => !t.base && !(decide (t.name ∈ order)))) with
    | none =>
      rw [List.argmin_eq_none] at hA
      exact absurd (hA ▸ hU0) (List.not_mem_nil t0)
    | some m => exact ⟨m, rfl⟩
  have htU := List.argmin_mem hargmin
  have h6 := List.mem_filter.mp htU
  have htmem := h6.1
  have hb : t.base = false := by
    have h7 := h6.2
    simp only [Bool.and_eq_true, Bool.not_eq_true', decide_eq_false_iff_not] at h7
    exact h7.1
  have hnotin : t.name ∉ order := by
    have h7 := h6.2
    simp only [Bool.and_eq_true, Bool.not_eq_true', decide_eq_false_iff_not] at h7
    exact h7.2
  have hwa : t.is_word_anchor = false := by
    cases hwa0 : t.is_word_anchor with
    | false => rfl
    | true => exact absurd (hinv.2.2 t htmem hwa0) hnotin
  have hready : tierReady t order = true := by
    cases hst : t.supertype with
    | none => exact tierReady_none t hst order
    | some s =>
      obtain ⟨u, humem, huname, hubase, huor⟩ := hsup t htmem hb hwa s hst
      have hs_in : s ∈ order := by
        rcases huor with h1 | h2
        · rw [← huname]
          exact hinv.2.2 u humem h1
        · by_contra hs_nin
          have huU : u ∈ dd.tiers.filter (fun t => !t.base && !(decide (t.name ∈ order))) :=
            List.mem_filter.mpr ⟨humem, by simp [hubase, huname, hs_nin]⟩
          have hge := List.le_of_mem_argmin huU hargmin
          rw [huname] at hge
          omega
      rw [tierReady_some t s hst]
      exact decide_eq_true hs_in
  have hplaced := processPass_places dd.tiers order t htmem hb hready
  obtain ⟨ext, he⟩ := processPass_append dd.tiers order
  rw [he] at hplaced ⊢
  have hext : ext ≠ [] := by
    intro h0
    rw [h0, List.append_nil] at hplaced
    exact hnotin hplaced
  rw [List.length_append]
  have hlp : 0 < ext.length := List.length_pos.mpr hext
  omega

/-- The base/non-base tiers partition the tier dictionary. -/
theorem filter_base_partition : ∀ (l : List Tier),
    (l.filter Tier.base).length + (l.filter (fun t => !t.base)).length = l.length := by
  intro l
  induction l with
  | nil => rfl
  | cons t rest ih =>
    by_cases hbb : t.base = true
    · simp only [List.filter_cons, hbb, Bool.not_true, if_pos, List.length_cons]
      simp only [Tier.base] at *
      simp [hbb, ih]
      omega
    · have hb2 : t.base = false := by
        cases hb3 : t.base with
        | false => rfl
        | true => exact absurd hb3 hbb
      simp [List.filter_cons, hb2, ih]
      omega

/-- The quantity the `while` condition subtracts equals the number of
non-base tiers. -/
theorem nonbase_count (dd : OrderData) :
    dd.tiers.length - dd.base_levels.length = dd.nonbaseNames.length := by
  rw [OrderData.base_levels, OrderData.nonbaseNames, List.length_map, List.length_map]
  have := filter_base_partition dd.tiers
  omega

/-- When the order is at least as long as the non-base name list, the
invariant forces it to be a permutation of that list. -/
theorem processExit_perm (dd : OrderData) (order : List String) (hinv : OrderInv dd order)
    (hge : dd.nonbaseNames.length ≤ order.length) : order.Perm dd.nonbaseNames := by
  have hsub : order ⊆ dd.nonbaseNames := by
    intro n hn
    obtain ⟨t, ht, hname, hb⟩ := hinv.2.1 n hn
    exact List.mem_map.mpr ⟨t, List.mem_filter.mpr ⟨ht, by simp [hb]⟩, hname⟩
  exact (List.subperm_of_subset hinv.1 hsub).perm_of_length_le hge

/-- The fuelled `while` loop terminates with a permutation of the
non-base tier names once the fuel covers the remaining deficit. -/
theorem processLoop_ok (dd : OrderData) (rank : String → ℕ)
    (hnd : (dd.tiers.map Tier.name).Nodup)
    (hsup : ∀ t ∈ dd.tiers, t.base = false → t.is_word_anchor = false →
      ∀ s, t.supertype = some s →
        ∃ u, u ∈ dd.tiers ∧ u.name = s ∧ u.base = false ∧
          (u.is_word_anchor = true ∨ rank s < rank t.name)) :
    ∀ (m : ℕ) (order : List String), OrderInv dd order →
      dd.nonbaseNames.length ≤ order.length + m →
      ∃ r, processOrderFuel dd m order = some r ∧ r.Perm dd.nonbaseNames := by
  intro m
  induction m with
  | zero =>
    intro order hinv hlen
    have hperm := processExit_perm dd order hinv (by omega)
    have hcond : ¬(order.length < dd.tiers.length - dd.base_levels.length) := by
      have := nonbase_count dd
      omega
    exact ⟨order, by rw [processOrderFuel, if_neg hcond], hperm⟩
  | succ m ih =>
    intro order hinv hlen
    by_cases hcond : order.length < dd.tiers.length - dd.base_levels.length
    · have hrem : ∃ t, t ∈ dd.tiers ∧ t.base = false ∧ t.name ∉ order := by
        by_contra hno
        push_neg at hno
        have hndnb : dd.nonbaseNames.Nodup :=
          ((List.filter_sublist dd.tiers).map Tier.name).nodup hnd
        have hsub2 : dd.nonbaseNames ⊆ order := by
          intro n hn
          obtain ⟨t, htf, hname⟩ := List.mem_map.mp hn
          have h5 := List.mem_filter.mp htf
          have hb : t.base = false := by
            have h7 := h5.2
            simp only [Bool.not_eq_true'] at h7
            exact h7
          exact hname ▸ hno t h5.1 hb
        have hle := (List.subperm_of_subset hndnb hsub2).length_le
        have := nonbase_count dd
        omega
      have hprog := processPass_progress dd rank hsup order hinv hrem
      have hinv2 := processPass_inv dd.tiers dd order (fun t ht => ht) hinv
      obtain ⟨r, hr, hperm⟩ := ih (processPass dd.tiers order) hinv2 (by omega)
      exact ⟨r, by rw [processOrderFuel, if_pos hcond]; exact hr, hperm⟩
    · have hperm := processExit_perm dd order hinv (by have := nonbase_count dd; omega)
      exact ⟨order, by rw [processOrderFuel, if_neg hcond], hperm⟩

/-- C3 (amended): for every DiscourseData with distinct tier names in
which word-anchor tiers are non-base and every non-base non-anchor
tier's supertype either is absent or names a non-base tier of the data
that is a word anchor or of strictly smaller rank (an acyclic forest
whose supertype chains stay inside the non-base tiers), `process_order`
terminates — a pass budget of one more than the number of tiers
suffices — and places exactly the non-base tiers, each exactly once.
For the 2-cycle (A.supertype = B, B.supertype = A) it raises no
hierarchy error: it fails to terminate. -/
theorem c3_process_order_acyclic_terminates
    (dd : OrderData) (rank : String → ℕ)
    (hnd : (dd.tiers.map Tier.name).Nodup)
    (hanchor : ∀ t ∈ dd.tiers, t.is_word_anchor = true → t.base = false)
    (hsup : ∀ t ∈ dd.tiers, t.base = false → t.is_word_anchor = false →
      ∀ s, t.supertype = some s →
        ∃ u, u ∈ dd.tiers ∧ u.name = s ∧ u.base = false ∧
          (u.is_word_anchor = true ∨ rank s < rank t.name)) :
    (∃ r, process_order dd (dd.tiers.length + 1) = some r ∧ r.Nodup ∧
      ∀ n, (n ∈ r ↔ ∃ t, t ∈ dd.tiers ∧ t.name = n ∧ t.base = false)) ∧
    processOrderDiverges twoCycleData := by
  refine ⟨?_, twoCycleData_diverges⟩
  have hinv0 : OrderInv dd dd.word_levels := by
    refine ⟨((List.filter_sublist dd.tiers).map Tier.name).nodup hnd, ?_, ?_⟩
    · intro n hn
      obtain ⟨t, htf, hname⟩ := List.mem_map.mp hn
      have h5 := List.mem_filter.mp htf
      exact ⟨t, h5.1, hname, hanchor t h5.1 h5.2⟩
    · intro t ht hwa
      exact List.mem_map.mpr ⟨t, List.mem_filter.mpr ⟨ht, hwa⟩, rfl⟩
  have hlen : dd.nonbaseNames.length ≤ dd.word_levels.length + (dd.tiers.length + 1) := by
    have h1 : dd.nonbaseNames.length ≤ dd.tiers.length := by
      rw [OrderData.nonbaseNames, List.length_map]
      exact List.length_filter_le _ _
    omega
  obtain ⟨r, hr, hperm⟩ :=
    processLoop_ok dd rank hnd hsup (dd.tiers.length + 1) dd.word_levels hinv0 hlen
  refine ⟨r, hr, ?_, ?_⟩
  · have hndnb : dd.nonbaseNames.Nodup :=
      ((List.filter_sublist dd.tiers).map Tier.name).nodup hnd
    exact hperm.nodup_iff.mpr hndnb
  · intro n
    rw [hperm.mem_iff]
    constructor
    · intro hn
      obtain ⟨t, htf, hname⟩ := List.mem_map.mp hn
      have h5 := List.mem_filter.mp htf
      refine ⟨t, h5.1, hname, ?_⟩
      have h7 := h5.2
      simp only [Bool.not_eq_true'] at h7
      exact h7
    · rintro ⟨t, ht, hname, hb⟩
      exact List.mem_map.mpr ⟨t, List.mem_filter.mpr ⟨ht, by simp [hb]⟩, hname⟩

/-- The supertype-rank condition holds on the concrete forest data with
the constant rank. -/
theorem forestData_hsup :
    ∀ t ∈ forestData.tiers, t.base = false → t.is_word_anchor = false →
      ∀ s, t.supertype = some s →
        ∃ u, u ∈ forestData.tiers ∧ u.name = s ∧ u.base = false ∧
          (u.is_word_anchor = true ∨ (fun _ => (0 : ℕ)) s < (fun _ => (0 : ℕ)) t.name) := by
  intro t ht hb ha s hs
  fin_cases ht
  · exact absurd ha (by decide)
  · have hsw : "word" = s := Option.some.inj hs
    subst hsw
    exact ⟨⟨"word", Option.none, true, false, false⟩, by decide, rfl, rfl, Or.inl (by decide)⟩
  · exact absurd hb (by decide)

/-- Concrete witness for the amended C3 theorem: a word anchor, one
dependent non-base tier and a base tier, with the constant rank. -/
theorem c3_process_order_acyclic_terminates_witness :
    ((forestData.tiers.map Tier.name).Nodup ∧
      (∀ t ∈ forestData.tiers, t.is_word_anchor = true → t.base = false)) ∧
    ((∃ r, process_order forestData (forestData.tiers.length + 1) = some r ∧ r.Nodup ∧
      ∀ n, (n ∈ r ↔ ∃ t, t ∈ forestData.tiers ∧ t.name = n ∧ t.base = false)) ∧
     processOrderDiverges twoCycleData) :=
  ⟨⟨by decide, by decide⟩,
    c3_process_order_acyclic_terminates forestData (fun _ => 0) (by decide) (by decide)
      forestData_hsup⟩

/-- Membership after a set insert. -/
theorem strInsert_mem (l : List String) (x n : String) :
    n ∈ strInsert l x ↔ n ∈ l ∨ n = x := by
  rw [strInsert]
  by_cases h : x ∈ l
  · rw [if_pos h]
    constructor
    · exact Or.inl
    · rintro (h1 | rfl)
      · exact h1
      · exact h
  · rw [if_neg h]
    simp [List.mem_append]

/-- Membership after folding set inserts: union semantics. -/
theorem foldl_strInsert_mem : ∀ (xs init2 : List String) (n : String),
    n ∈ xs.foldl strInsert init2 ↔ n ∈ init2 ∨ n ∈ xs := by
  intro xs
  induction xs with
  | nil => intro init2 n; simp
  | cons x rest ih =>
    intro init2 n
    rw [List.foldl_cons, ih, strInsert_mem]
    simp only [List.mem_cons]
    tauto

/-- Assigning a fresh key appends it. -/
theorem dictSet_fresh (l : List (String × Option String)) (k : String) (v : Option String)
    (h : k ∉ l.map Prod.fst) : dictSet l k v = l ++ [(k, v)] := by
  rw [dictSet, if_neg h]

/-- The hierarchy loop succeeds on resolvable output types, and its
keys are the accumulated keys followed by the processed types. -/
theorem buildHierarchy_ok (d : GraphDiscourse) :
    ∀ (xs : List String) (h : List (String × Option String)),
      xs.Nodup → (∀ x ∈ xs, x ∉ h.map Prod.fst) →
      ("word" ∈ xs → wordResolvable d = true) →
      (∀ x ∈ xs, x ≠ "word" → tierResolvable d x = true) →
      ∃ r, buildHierarchy d xs h = Except.ok r ∧
        r.map Prod.fst = h.map Prod.fst ++ xs := by
  intro xs
  induction xs with
  | nil =>
    intro h _ _ _ _
    exact ⟨h, rfl, by simp⟩
  | cons x rest ih =>
    intro h hnd hfresh hw hres
    obtain ⟨hxr, hndr⟩ := List.nodup_cons.mp hnd
    have hxh := hfresh x (List.mem_cons_self x rest)
    have hfresh2 : ∀ (v : Option String), ∀ y ∈ rest, y ∉ (h ++ [(x, v)]).map Prod.fst := by
      intro v y hy hmem
      rw [List.map_append] at hmem
      rcases List.mem_append.mp hmem with h1 | h2
      · exact hfresh y (List.mem_cons_of_mem x hy) h1
      · have h3 : y = x := by simpa using h2
        exact hxr (h3 ▸ hy)
    have hw2 : "word" ∈ rest → wordResolvable d = true :=
      fun hh => hw (List.mem_cons_of_mem x hh)
    have hres2 : ∀ y ∈ rest, y ≠ "word" → tierResolvable d y = true :=
      fun y hy => hres y (List.mem_cons_of_mem x hy)
    have hstep : ∀ (v : Option String),
        ∃ r, buildHierarchy d rest (dictSet h x v) = Except.ok r ∧
          r.map Prod.fst = h.map Prod.fst ++ (x :: rest) := by
      intro v
      rw [dictSet_fresh h x v hxh]
      obtain ⟨r, hr, hk⟩ := ih (h ++ [(x, v)]) hndr (hfresh2 v) hw2 hres2
      refine ⟨r, hr, ?_⟩
      rw [hk]
      simp
    rw [buildHierarchy]
    by_cases hx : x = "word"
    · rw [if_pos hx]
      have hwr : wordResolvable d = true := hw (by rw [hx]; exact List.mem_cons_self _ _)
      split
      · rename_i heq
        rw [wordResolvable, heq] at hwr
        exact absurd hwr (by simp)
      · rename_i w ws heq
        have hwr2 : (d.find? w).isSome = true := by
          rw [wordResolvable, heq] at hwr
          exact hwr
        split
        · rename_i heq2
          rw [heq2] at hwr2
          exact absurd hwr2 (by simp)
        · rename_i p heq2
          exact hstep p.1
    · rw [if_neg hx]
      have htr : tierResolvable d x = true := hres x (List.mem_cons_self x rest) hx
      split
      · rename_i heq
        rw [tierResolvable, heq] at htr
        exact absurd htr (by simp)
      · rename_i p heq
        have htr2 : (match p.1 with
            | Option.none => true
            | some s => (d.find? s).isSome) = true := by
          rw [tierResolvable, heq] at htr
          exact htr
        split
        · exact hstep Option.none
        · rename_i sup heq2
          have htr3 : (d.find? sup).isSome = true := by
            rw [heq2] at htr2
            exact htr2
          split
          · rename_i heq3
            rw [heq3] at htr3
            exact absurd htr3 (by simp)
          · rename_i q heq3
            by_cases hq : q.2 = true
            · rw [if_pos hq]
              exact hstep (some "word")
            · rw [if_neg hq]
              exact hstep (some sup)

/-- C9: after `add_discourse`, the relationship-type set is the union
of its previous value with the discourse's output types (it
accumulates), while `is_timed` and `hierarchy` are overwritten from
the discourse just added alone: `is_timed` becomes exactly that
discourse's flag (a later untimed import resets it even after a timed
one), and the hierarchy is rebuilt to map exactly that discourse's
output types — its value is the same whatever the previous corpus
state was. -/
theorem c9_add_discourse_overwrite_semantics (st : CorpusState) (d : GraphDiscourse)
    (hnodup : d.output_types.Nodup)
    (hword : "word" ∈ d.output_types → wordResolvable d = true)
    (hres : ∀ x ∈ d.output_types, x ≠ "word" → tierResolvable d x = true) :
    ∃ st2, add_discourse st d = Except.ok st2 ∧
      (∀ n, n ∈ st2.relationship_types ↔ n ∈ st.relationship_types ∨ n ∈ d.output_types) ∧
      st2.is_timed = d.is_timed ∧
      st2.hierarchy.map Prod.fst = d.output_types ∧
      (∀ st3, ∃ st4, add_discourse st3 d = Except.ok st4 ∧
        st4.hierarchy = st2.hierarchy ∧ st4.is_timed = st2.is_timed) := by
  obtain ⟨hier, hh, hk⟩ := buildHierarchy_ok d d.output_types [] hnodup (by simp) hword hres
  refine ⟨⟨d.output_types.foldl strInsert st.relationship_types, d.is_timed, hier⟩,
    ?_, ?_, rfl, ?_, ?_⟩
  · rw [add_discourse, hh]
  · intro n
    exact foldl_strInsert_mem d.output_types st.relationship_types n
  · simpa using hk
  · intro st3
    refine ⟨⟨d.output_types.foldl strInsert st3.relationship_types, d.is_timed, hier⟩,
      ?_, rfl, rfl⟩
    rw [add_discourse, hh]

/-- Concrete witness for the C9 theorem: a previously timed corpus
state absorbs an untimed two-tier discourse. -/
theorem c9_add_discourse_overwrite_semantics_witness :
    (exampleDiscourse.output_types.Nodup ∧
      ("word" ∈ exampleDiscourse.output_types → wordResolvable exampleDiscourse = true) ∧
      (∀ x ∈ exampleDiscourse.output_types, x ≠ "word" →
        tierResolvable exampleDiscourse x = true)) ∧
    (∃ st2, add_discourse ⟨["syllable"], true, [("syllable", Option.none)]⟩ exampleDiscourse
        = Except.ok st2 ∧
      (∀ n, n ∈ st2.relationship_types ↔
        n ∈ (⟨["syllable"], true, [("syllable", Option.none)]⟩ :
          CorpusState).relationship_types ∨ n ∈ exampleDiscourse.output_types) ∧
      st2.is_timed = exampleDiscourse.is_timed ∧
      st2.hierarchy.map Prod.fst = exampleDiscourse.output_types ∧
      (∀ st3, ∃ st4, add_discourse st3 exampleDiscourse = Except.ok st4 ∧
        st4.hierarchy = st2.hierarchy ∧ st4.is_timed = st2.is_timed)) :=
  ⟨⟨by decide, by decide, by decide⟩,
    c9_add_discourse_overwrite_semantics ⟨["syllable"], true, [("syllable", Option.none)]⟩
      exampleDiscourse (by decide) (by decide) (by decide)⟩

/-- C1: `collapse_speakers` cannot complete on speaker-owned data.
`AnnotationType.__init__` (helper.py 266-267) has no `delimited`
parameter, yet the creation of the first merged tier (lines 424-426)
passes `delimited = v.delimited`, so the call raises TypeError before
any segment is merged or any cross-reference shifted.  Evaluated here
on a one-tier discourse owned by speaker "s1" carrying one annotation;
with no speaker-owned tier the loop body never runs and the merged
dictionary comes out empty (every tier is silently dropped). -/
theorem c1_collapse_speakers_raises_typeerror :
    collapse_speakers
        [⟨"s1 - word", "word", some "s1", Option.none, Option.none, true, false, false,
          [[("label", AnnVal.strval "cat"), ("s1 - phone", AnnVal.interval 0 3)]]⟩]
      = Except.error "TypeError: init got an unexpected keyword argument delimited" ∧
    collapse_speakers
        [⟨"word", "word", Option.none, Option.none, Option.none, true, false, false, []⟩]
      = Except.ok [] := ⟨rfl, rfl⟩

/-- C5: `data_to_discourse` raises `NameError` on every discourse:
the names `Discourse` (line 593) and `WordToken` (line 640) are
neither imported nor defined anywhere in helper.py, so the function
fails before creating any word token and the begin/end assignment the
claim describes never executes. -/
theorem c5_data_to_discourse_raises_nameerror (tiers : List D2DTier) :
    data_to_discourse tiers
      = Except.error "NameError: name Discourse is not defined" := rfl

/-- What `findOccIdx` finds is an occurrence, and a leftmost one. -/
theorem findOccIdx_spec (d : List Char) :
    ∀ (s : List Char) (i : ℕ), findOccIdx d s = some i →
      d.isPrefixOf (s.drop i) = true ∧ ∀ j, j < i → ¬ d.isPrefixOf (s.drop j) = true := by
  intro s
  induction s with
  | nil =>
    intro i h
    rw [findOccIdx] at h
    by_cases hp : d.isPrefixOf [] = true
    · rw [if_pos hp] at h
      cases h
      exact ⟨hp, fun j hj => absurd hj (Nat.not_lt_zero j)⟩
    · rw [if_neg hp] at h
      exact absurd h (by simp)
  | cons c rest ih =>
    intro i h
    rw [findOccIdx] at h
    by_cases hp : d.isPrefixOf (c :: rest) = true
    · rw [if_pos hp] at h
      cases h
      exact ⟨hp, fun j hj => absurd hj (Nat.not_lt_zero j)⟩
    · rw [if_neg hp] at h
      cases hfi : findOccIdx d rest with
      | none => rw [hfi] at h; exact absurd h (by simp)
      | some k =>
        rw [hfi] at h
        have h2 : some (k + 1) = some i := h
        have h3 : k + 1 = i := Option.some.inj h2
        subst h3
        obtain ⟨hpre, hmin⟩ := ih k hfi
        refine ⟨hpre, ?_⟩
        intro j hj
        cases j with
        | zero => exact hp
        | succ j2 => exact hmin j2 (by omega)

/-- A leftmost occurrence determines `findOccIdx`. -/
theorem findOccIdx_of_spec (d : List Char) (hd : d ≠ []) :
    ∀ (s : List Char) (i : ℕ), d.isPrefixOf (s.drop i) = true →
      (∀ j, j < i → ¬ d.isPrefixOf (s.drop j) = true) → findOccIdx d s = some i := by
  intro s
  induction s with
  | nil =>
    intro i hpre _
    exfalso
    rw [List.drop_nil] at hpre
    cases d with
    | nil => exact hd rfl
    | cons a t => simp [List.isPrefixOf] at hpre
  | cons c rest ih =>
    intro i hpre hmin
    rw [findOccIdx]
    by_cases hp : d.isPrefixOf (c :: rest) = true
    · rw [if_pos hp]
      cases i with
      | zero => rfl
      | succ i2 => exact absurd hp (hmin 0 (Nat.succ_pos i2))
    · rw [if_neg hp]
      cases i with
      | zero => exact absurd hpre hp
      | succ i2 =>
        have h2 := ih i2 hpre (fun j hj => hmin (j + 1) (by omega))
        rw [h2]
        rfl

/-- A prefix test does not see past the first `d.length` characters. -/
theorem isPrefixOf_append_of_le (d x r : List Char) (hlen : d.length ≤ x.length) :
    d.isPrefixOf (x ++ r) = d.isPrefixOf x := by
  by_cases h : d.isPrefixOf x = true
  · rw [h]
    have hpre := List.isPrefixOf_iff_prefix.mp h
    exact List.isPrefixOf_iff_prefix.mpr (hpre.trans (List.prefix_append x r))
  · have h2 : d.isPrefixOf x = false := by
      cases hb : d.isPrefixOf x with
      | false => rfl
      | true => exact absurd hb h
    rw [h2]
    cases hb : d.isPrefixOf (x ++ r) with
    | false => rfl
    | true =>
      exfalso
      have hpre := List.isPrefixOf_iff_prefix.mp hb
      have he : d = (x ++ r).take d.length := List.prefix_iff_eq_take.mp hpre
      rw [List.take_append_of_le_length hlen] at he
      exact h (List.isPrefixOf_iff_prefix.mpr (List.prefix_iff_eq_take.mpr he))

/-- The piece cut before a found occurrence is a `GoodPiece`: whatever
follows `take i s ++ d`, its leftmost occurrence of `d` is at `i`. -/
theorem goodPiece_of_findOccIdx (d : List Char) (hd : d ≠ []) (s : List Char) (i : ℕ)
    (h : findOccIdx d s = some i) : GoodPiece d (s.take i) := by
  obtain ⟨hpre, hmin⟩ := findOccIdx_spec d s i h
  have hle := findOccIdx_le d hd s i h
  have hdlen : d.length ≠ 0 := fun h0 => hd (List.eq_nil_of_length_eq_zero h0)
  have hilen : i ≤ s.length := by omega
  have hlen_take : (s.take i).length = i := by
    rw [List.length_take]
    omega
  obtain ⟨t, ht⟩ := List.isPrefixOf_iff_prefix.mp hpre
  have hs : s = (s.take i ++ d) ++ t := by
    rw [List.append_assoc, ht, List.take_append_drop]
  intro r
  apply findOccIdx_of_spec d hd
  · rw [hlen_take]
    have e1 : ((s.take i ++ d) ++ r).drop i = (s.take i ++ d).drop i ++ r :=
      List.drop_append_of_le_length (by rw [List.length_append]; omega)
    have e2 : (s.take i ++ d).drop i = d := List.drop_left' hlen_take
    rw [e1, e2]
    exact List.isPrefixOf_iff_prefix.mpr (List.prefix_append d r)
  · intro j hj
    rw [hlen_take] at hj
    have hjX : j ≤ (s.take i ++ d).length := by rw [List.length_append]; omega
    have e1 : ((s.take i ++ d) ++ r).drop j = (s.take i ++ d).drop j ++ r :=
      List.drop_append_of_le_length hjX
    have e2 : s.drop j = (s.take i ++ d).drop j ++ t := by
      conv_lhs => rw [hs]
      exact List.drop_append_of_le_length hjX
    have hdX : d.length ≤ ((s.take i ++ d).drop j).length := by
      rw [List.length_drop, List.length_append, hlen_take]
      omega
    rw [e1, isPrefixOf_append_of_le d _ r hdX, ← isPrefixOf_append_of_le d _ t hdX, ← e2]
    exact hmin j (by omega)

/-- Splitting the empty string gives one empty piece. -/
theorem pySplitF_nil (d : List Char) (hd : d ≠ []) :
    ∀ fuel, pySplitF d fuel [] = [[]] := by
  intro fuel
  cases fuel with
  | zero => rfl
  | succ n => rw [pySplitF, findOccIdx_nil d hd]

/-- Any sufficient fuel computes the same split. -/
theorem pySplitF_fuel_inv (d : List Char) (hd : d ≠ []) :
    ∀ (f1 f2 : ℕ) (s : List Char), s.length ≤ f1 → s.length ≤ f2 →
      pySplitF d f1 s = pySplitF d f2 s := by
  intro f1
  induction f1 with
  | zero =>
    intro f2 s h1 _
    have hs : s = [] := List.eq_nil_of_length_eq_zero (by omega)
    subst hs
    rw [pySplitF_nil d hd 0, pySplitF_nil d hd f2]
  | succ n ih =>
    intro f2 s h1 h2
    cases f2 with
    | zero =>
      have hs : s = [] := List.eq_nil_of_length_eq_zero (by omega)
      subst hs
      rw [pySplitF_nil d hd (n + 1), pySplitF_nil d hd 0]
    | succ m =>
      rw [pySplitF, pySplitF]
      cases hocc : findOccIdx d s with
      | none => rfl
      | some i =>
        have hde : d.isEmpty = false := isEmpty_false_of_ne_nil hd
        have hdlen : d.length ≠ 0 := fun h0 => hd (List.eq_nil_of_length_eq_zero h0)
        have hle := findOccIdx_le d hd s i hocc
        show (if d.isEmpty = true then [s]
            else s.take i :: pySplitF d n (s.drop (i + d.length)))
          = (if d.isEmpty = true then [s]
            else s.take i :: pySplitF d m (s.drop (i + d.length)))
        rw [if_neg (by simp [hde]), if_neg (by simp [hde])]
        congr 1
        apply ih m
        · rw [List.length_drop]; omega
        · rw [List.length_drop]; omega

/-- Every split result has the `PiecesOk` shape. -/
theorem pySplit_piecesOk (d : List Char) (hd : d ≠ []) :
    ∀ (fuel : ℕ) (s : List Char), s.length ≤ fuel → PiecesOk d (pySplitF d fuel s) := by
  intro fuel
  induction fuel with
  | zero =>
    intro s h1
    have hs : s = [] := List.eq_nil_of_length_eq_zero (by omega)
    subst hs
    exact PiecesOk.last [] (findOccIdx_nil d hd)
  | succ n ih =>
    intro s h1
    rw [pySplitF]
    cases hocc : findOccIdx d s with
    | none => exact PiecesOk.last s hocc
    | some i =>
      have hde : d.isEmpty = false := isEmpty_false_of_ne_nil hd
      have hdlen : d.length ≠ 0 := fun h0 => hd (List.eq_nil_of_length_eq_zero h0)
      have hle := findOccIdx_le d hd s i hocc
      show PiecesOk d (if d.isEmpty = true then [s]
        else s.take i :: pySplitF d n (s.drop (i + d.length)))
      rw [if_neg (by simp [hde])]
      refine PiecesOk.cons _ _ (goodPiece_of_findOccIdx d hd s i hocc) ?_
      apply ih
      rw [List.length_drop]; omega

/-- A `GoodPiece` itself contains no occurrence. -/
theorem goodPiece_noOcc (d : List Char) (hd : d ≠ []) (L : List Char) (h : GoodPiece d L) :
    noOccPiece d L := by
  rw [noOccPiece]
  cases hocc : findOccIdx d L with
  | none => rfl
  | some j =>
    exfalso
    have hle := findOccIdx_le d hd L j hocc
    have hdlen : d.length ≠ 0 := fun h0 => hd (List.eq_nil_of_length_eq_zero h0)
    obtain ⟨hpre, _⟩ := findOccIdx_spec d L j hocc
    obtain ⟨_, hmin2⟩ := findOccIdx_spec d (L ++ d ++ []) L.length (h [])
    apply hmin2 j (by omega)
    have e1 : ((L ++ d) ++ []).drop j = L.drop j ++ (d ++ []) := by
      rw [List.append_assoc]
      exact List.drop_append_of_le_length (by omega)
    rw [e1, isPrefixOf_append_of_le d _ _ (by rw [List.length_drop]; omega)]
    exact hpre

/-- `PiecesOk` never holds of the empty list of pieces. -/
theorem piecesOk_ne_nil (d : List Char) (ps : List (List Char)) (h : PiecesOk d ps) :
    ps ≠ [] := by
  cases h <;> simp

/-- Discarding empty pieces keeps the `PiecesOk` shape (or discards
everything). -/
theorem piecesOk_filter (d : List Char) (hd : d ≠ []) :
    ∀ (ps : List (List Char)), PiecesOk d ps →
      ps.filter (fun p => !p.isEmpty) = [] ∨
        PiecesOk d (ps.filter (fun p => !p.isEmpty)) := by
  intro ps hps
  induction hps with
  | last p h =>
    by_cases hp : p.isEmpty = true
    · left
      simp [List.filter_cons, hp]
    · right
      have he : List.filter (fun q => !q.isEmpty) [p] = [p] := by
        simp [List.filter_cons, hp]
      rw [he]
      exact PiecesOk.last p h
  | cons p ps2 h hps2 ih =>
    by_cases hp : p.isEmpty = true
    · have he : List.filter (fun q => !q.isEmpty) (p :: ps2)
          = List.filter (fun q => !q.isEmpty) ps2 := by
        simp [List.filter_cons, hp]
      rw [he]
      exact ih
    · have he : List.filter (fun q => !q.isEmpty) (p :: ps2)
          = p :: List.filter (fun q => !q.isEmpty) ps2 := by
        simp [List.filter_cons, hp]
      rw [he]
      right
      rcases ih with h0 | hok
      · rw [h0]
        exact PiecesOk.last p (goodPiece_noOcc d hd p h)
      · exact PiecesOk.cons p _ h hok

/-- Every piece is a sublist of the input string. -/
theorem pySplitF_sublist (d : List Char) :
    ∀ (fuel : ℕ) (s p : List Char), p ∈ pySplitF d fuel s → p.Sublist s := by
  intro fuel
  induction fuel with
  | zero =>
    intro s p hp
    have hp2 : p ∈ [s] := hp
    have : p = s := by simpa using hp2
    subst this
    exact List.Sublist.refl p
  | succ n ih =>
    intro s p hp
    rw [pySplitF] at hp
    cases hocc : findOccIdx d s with
    | none =>
      rw [hocc] at hp
      have hp2 : p ∈ [s] := hp
      have : p = s := by simpa using hp2
      subst this
      exact List.Sublist.refl p
    | some i =>
      rw [hocc] at hp
      have hp2 : p ∈ (if d.isEmpty = true then [s]
          else s.take i :: pySplitF d n (s.drop (i + d.length))) := hp
      by_cases hde : d.isEmpty = true
      · rw [if_pos hde] at hp2
        have : p = s := by simpa using hp2
        subst this
        exact List.Sublist.refl p
      · rw [if_neg hde] at hp2
        rcases List.mem_cons.mp hp2 with rfl | hmem
        · exact List.take_sublist i s
        · exact (ih _ p hmem).trans (List.drop_sublist _ s)

/-- A character of a join comes from a piece or from the separator. -/
theorem pyJoin_mem (d : List Char) :
    ∀ (ls : List (List Char)) (c : Char), c ∈ pyJoin d ls →
      (∃ L, L ∈ ls ∧ c ∈ L) ∨ c ∈ d := by
  intro ls
  induction ls with
  | nil => intro c hc; simp [pyJoin] at hc
  | cons L ls2 ih =>
    cases ls2 with
    | nil =>
      intro c hc
      rw [pyJoin] at hc
      exact Or.inl ⟨L, by simp, hc⟩
    | cons M ls3 =>
      intro c hc
      rw [pyJoin] at hc
      rcases List.mem_append.mp hc with h1 | h2
      · rcases List.mem_append.mp h1 with h3 | h4
        · exact Or.inl ⟨L, by simp, h3⟩
        · exact Or.inr h4
      · rcases ih c h2 with ⟨L2, hL2, hcL⟩ | hcd
        · exact Or.inl ⟨L2, List.mem_cons_of_mem L hL2, hcL⟩
        · exact Or.inr hcd

/-- Re-splitting the join of a `PiecesOk` list recovers it exactly. -/
theorem pySplit_join (d : List Char) (hd : d ≠ []) :
    ∀ (ls : List (List Char)), PiecesOk d ls → pySplit d (pyJoin d ls) = ls := by
  intro ls hls
  induction hls with
  | last p h =>
    rw [pyJoin]
    exact pySplit_no_occ d p h
  | cons p ps2 h hps2 ih =>
    obtain ⟨q, qs, rfl⟩ : ∃ q qs, ps2 = q :: qs := by
      cases hps2 with
      | last x hx => exact ⟨x, [], rfl⟩
      | cons x xs hx hxs => exact ⟨x, xs, rfl⟩
    rw [pyJoin]
    have hdlen : d.length ≠ 0 := fun h0 => hd (List.eq_nil_of_length_eq_zero h0)
    have hocc := h (pyJoin d (q :: qs))
    obtain ⟨m, hm⟩ : ∃ m, (p ++ d ++ pyJoin d (q :: qs)).length = m + 1 := by
      refine ⟨(p ++ d ++ pyJoin d (q :: qs)).length - 1, ?_⟩
      rw [List.append_assoc, List.length_append, List.length_append]
      omega
    rw [pySplit, hm, pySplitF, hocc]
    have hde : d.isEmpty = false := isEmpty_false_of_ne_nil hd
    show (if d.isEmpty = true then [p ++ d ++ pyJoin d (q :: qs)]
      else (p ++ d ++ pyJoin d (q :: qs)).take p.length ::
        pySplitF d m ((p ++ d ++ pyJoin d (q :: qs)).drop (p.length + d.length)))
      = p :: q :: qs
    rw [if_neg (by simp [hde])]
    have htake : (p ++ d ++ pyJoin d (q :: qs)).take p.length = p := by
      rw [List.append_assoc]
      exact List.take_left p _
    have hdrop : (p ++ d ++ pyJoin d (q :: qs)).drop (p.length + d.length)
        = pyJoin d (q :: qs) := by
      rw [← List.length_append]
      exact List.drop_left (p ++ d) _
    rw [htake, hdrop]
    have hmJ : (pyJoin d (q :: qs)).length ≤ m := by
      rw [List.append_assoc, List.length_append, List.length_append] at hm
      omega
    rw [pySplitF_fuel_inv d hd m (pyJoin d (q :: qs)).length (pyJoin d (q :: qs)) hmJ
      (le_refl _)]
    rw [show pySplitF d (pyJoin d (q :: qs)).length (pyJoin d (q :: qs))
      = pySplit d (pyJoin d (q :: qs)) from rfl]
    rw [ih]

/-- With no numeric-suffix policy the token loop just discards empty
tokens and wraps the rest. -/
theorem nbFold_none_eq : ∀ (pieces : List (List Char)) (acc : List BaseAnnotation),
    nbFold Option.none pieces acc
      = Except.ok (acc.reverse
          ++ (pieces.filter (fun p => !p.isEmpty)).map BaseAnnotation.mk0) := by
  intro pieces
  induction pieces with
  | nil => intro acc; rw [nbFold]; simp
  | cons seg t ih =>
    intro acc
    rw [nbFold]
    by_cases hp : seg.isEmpty = true
    · rw [if_pos hp, ih acc]
      have he : List.filter (fun p => !p.isEmpty) (seg :: t)
          = List.filter (fun p => !p.isEmpty) t := by
        simp [List.filter_cons, hp]
      rw [he]
    · rw [if_neg hp]
      show nbFold Option.none t ( BaseAnnotation.mk0 seg :: acc) = _
      rw [ih ( BaseAnnotation.mk0 seg :: acc)]
      have he : List.filter (fun p => !p.isEmpty) (seg :: t)
          = seg :: List.filter (fun p => !p.isEmpty) t := by
        simp [List.filter_cons, hp]
      rw [he]
      simp

/-- With no morpheme delimiters configured, the morph branch is
skipped and `parse_transcription` is `parseCore`. -/
theorem parse_transcription_core (at_ : ParseConfig) (s : List Char)
    (hmd : at_.morph_delimiters = []) :
    parse_transcription at_ s = parseCore at_ s := by
  have hg : ¬((!at_.morph_delimiters.isEmpty &&
      s.any fun c => at_.morph_delimiters.contains c) = true) := by simp [hmd]
  rw [parse_transcription, if_neg hg]

/-- `parseCore` with a non-empty explicit delimiter and no
numeric-suffix policy: strip ignored characters, split on the
delimiter, drop empty pieces, wrap each piece as a segment. -/
theorem parseCore_delim (at_ : ParseConfig) (d : List Char) (s : List Char)
    (htd : at_.trans_delimiter = some d) (hd : d ≠ [])
    (hnb : at_.number_behavior = Option.none) :
    parseCore at_ s = Except.ok
      (((pySplit d (s.filter (fun c => !(at_.ignored_characters.contains c)))).filter
          (fun p => !p.isEmpty)).map BaseAnnotation.mk0) := by
  have hcond : ¬(d.isEmpty = true) := by simp [isEmpty_false_of_ne_nil hd]
  rw [parseCore, hnb, htd]
  show (if d.isEmpty = true then Except.error "ValueError: empty separator"
    else nbFold Option.none
      (pySplit d (List.filter (fun c => !at_.ignored_characters.contains c) s)) [])
    = _
  rw [if_neg hcond, nbFold_none_eq]
  simp

/-- A located occurrence puts every delimiter character in the string. -/
theorem findOccIdx_some_subset (d : List Char) (s : List Char) (i : ℕ)
    (h : findOccIdx d s = some i) : ∀ c, c ∈ d → c ∈ s := by
  intro c hc
  obtain ⟨hpre, _⟩ := findOccIdx_spec d s i h
  have hsub : d.Sublist (s.drop i) := (List.isPrefixOf_iff_prefix.mp hpre).sublist
  exact (hsub.trans (List.drop_sublist i s)).subset hc

/-- Taking labels undoes wrapping pieces as segments. -/
theorem map_label_mk0 : ∀ (ls : List (List Char)),
    (ls.map BaseAnnotation.mk0).map (fun t => t.label) = ls := by
  intro ls
  induction ls with
  | nil => rfl
  | cons x t ih =>
    show ( BaseAnnotation.mk0 x).label
        :: (t.map BaseAnnotation.mk0).map (fun t2 => t2.label) = x :: t
    rw [ih]
    rfl

/-- C6 (amended): for every configuration with no morpheme delimiters,
no numeric-suffix policy and a non-empty explicit transcription
delimiter, `parse_transcription` is idempotent under round-trip:
joining the labels of a successful parse with the delimiter and
re-tokenizing returns exactly the same segment sequence.  (The
original claim quantified over every tier configuration; it fails when
a morpheme delimiter occurs inside the transcription delimiter, see
the counterexample.) -/
theorem c6_parse_transcription_round_trip (at_ : ParseConfig) (d s : List Char)
    (segs : List BaseAnnotation)
    (hmd : at_.morph_delimiters = [])
    (hnb : at_.number_behavior = Option.none)
    (htd : at_.trans_delimiter = some d)
    (hd : d ≠ [])
    (hp : parse_transcription at_ s = Except.ok segs) :
    parse_transcription at_ (pyJoin d (segs.map (fun t => t.label)))
      = Except.ok segs := by
  have hA := hp
  rw [parse_transcription_core at_ s hmd, parseCore_delim at_ d s htd hd hnb] at hA
  have hsegs := (Except.ok.inj hA).symm
  subst hsegs
  rw [map_label_mk0]
  rw [parse_transcription_core at_ _ hmd, parseCore_delim at_ d _ htd hd hnb]
  set s1 := s.filter (fun c => !(at_.ignored_characters.contains c)) with hs1
  set labels := (pySplit d s1).filter (fun p => !p.isEmpty) with hlab
  have hmemchar : ∀ c ∈ s1, (!(at_.ignored_characters.contains c)) = true := by
    intro c hc
    rw [hs1] at hc
    exact (List.mem_filter.mp hc).2
  have hlabelsne : ∀ L ∈ labels, (!L.isEmpty) = true := by
    intro L hL
    rw [hlab] at hL
    exact (List.mem_filter.mp hL).2
  have hlabelsmem : ∀ L ∈ labels, L ∈ pySplit d s1 := by
    intro L hL
    rw [hlab] at hL
    exact List.mem_of_mem_filter hL
  have hlabelschar : ∀ L ∈ labels, ∀ c ∈ L,
      (!(at_.ignored_characters.contains c)) = true := by
    intro L hL c hc
    have hsub : L.Sublist s1 := pySplitF_sublist d s1.length s1 L (hlabelsmem L hL)
    exact hmemchar c (hsub.subset hc)
  have hPO : PiecesOk d (pySplit d s1) :=
    pySplit_piecesOk d hd s1.length s1 (le_refl _)
  rcases piecesOk_filter d hd (pySplit d s1) hPO with h0 | hok
  · rw [← hlab] at h0
    rw [h0]
    rfl
  · rw [← hlab] at hok
    by_cases hdI : ∀ c ∈ d, (!(at_.ignored_characters.contains c)) = true
    · have hJ : (pyJoin d labels).filter (fun c => !(at_.ignored_characters.contains c))
          = pyJoin d labels := by
        rw [List.filter_eq_self]
        intro c hc
        rcases pyJoin_mem d labels c hc with ⟨L, hL, hcL⟩ | hcd
        · exact hlabelschar L hL c hcL
        · exact hdI c hcd
      rw [hJ, pySplit_join d hd labels hok, List.filter_eq_self.mpr hlabelsne]
    · push_neg at hdI
      obtain ⟨c, hcd, hcne⟩ := hdI
      have hcig : at_.ignored_characters.contains c = true := by
        cases h2 : at_.ignored_characters.contains c with
        | true => rfl
        | false => exact absurd (by rw [h2]; rfl) hcne
      have hocc : findOccIdx d s1 = Option.none := by
        cases hocc2 : findOccIdx d s1 with
        | none => rfl
        | some i =>
          exfalso
          have hcs1 : c ∈ s1 := findOccIdx_some_subset d s1 i hocc2 c hcd
          have hpc := hmemchar c hcs1
          rw [hcig] at hpc
          simp at hpc
      have hsplit : pySplit d s1 = [s1] := pySplit_no_occ d s1 hocc
      have hlab2 : labels = List.filter (fun p => !p.isEmpty) [s1] := by
        rw [hlab, hsplit]
      cases hs1e : s1.isEmpty with
      | true =>
        exfalso
        have hln : labels = [] := by
          rw [hlab2]
          simp [List.filter_cons, hs1e]
        exact piecesOk_ne_nil d labels hok hln
      | false =>
        have hlab3 : labels = [s1] := by
          rw [hlab2]
          simp [List.filter_cons, hs1e]
        rw [hlab3]
        rw [show pyJoin d [s1] = s1 from rfl]
        have hs1f : List.filter (fun c2 => !(at_.ignored_characters.contains c2)) s1
            = s1 := List.filter_eq_self.mpr hmemchar
        rw [hs1f, hsplit]
        have hfs : List.filter (fun p => !p.isEmpty) [s1] = [s1] := by
          simp [List.filter_cons, hs1e]
        rw [hfs]

/-- C6 witness: under `c6wcfg` (delimiter `-`, no morpheme delimiters,
no numeric-suffix policy), re-parsing the join of the segments of
`a-b` returns those segments again. -/
theorem c6_parse_transcription_round_trip_witness :
    parse_transcription c6wcfg
        (pyJoin ['-'] (c6wsegs.map (fun t => t.label))) = Except.ok c6wsegs :=
  c6_parse_transcription_round_trip c6wcfg ['-'] ['a', '-', 'b'] c6wsegs rfl rfl rfl
    (by decide) rfl

/-- C6 counterexample: under `c6cfg` the morpheme delimiter `-` is a
prefix of the transcription delimiter `-x`; parsing `a-b` yields
segments labelled `a`, `b`, but joining them with the delimiter gives
`a-xb`, which triggers the morph branch and re-parses to segments
labelled `a`, `xb` — the round trip is not the identity, refuting the
claim as stated over every tier configuration. -/
theorem c6_counterexample :
    c6cfg.trans_delimiter = some ['-', 'x'] ∧
    parse_transcription c6cfg ['a', '-', 'b'] = Except.ok c6segs ∧
    parse_transcription c6cfg (pyJoin ['-', 'x'] (c6segs.map (fun t => t.label)))
      ≠ Except.ok c6segs := by
  refine ⟨rfl, rfl, ?_⟩
  have hparse : parse_transcription c6cfg
      (pyJoin ['-', 'x'] (c6segs.map (fun t => t.label)))
      = Except.ok
        [⟨['a'], Option.none, Option.none, Option.none, Option.none, some 0⟩,
         ⟨['x', 'b'], Option.none, Option.none, Option.none, Option.none, some 1⟩] := rfl
  intro hcontra
  rw [hparse] at hcontra
  exact absurd (Except.ok.inj hcontra) (by decide)

end Annograph
